import Mathlib

/-!
# BufferRx: a delimiter-framed message collector

Shallow embedding of `src/autopilot/BufferRx.h`.

* A `char` is represented by its code, a natural number (`'\0'` is `0`); the code only
  compares chars for equality and stores them, so every theorem below, stated for all
  naturals, holds in particular for the 256 byte values.
* The `uint8_t` fields are naturals; the two places where 8-bit arithmetic happens
  (`pointer + 1` and the product in `hasMsg`) carry an explicit `% 256`.
* `LONG_BUFFER_RX_GPS`, the size of `buffer_rx`, is defined outside this file: it is the
  parameter `N` of the operations that use it.
* A store to `buffer_rx[i]` with `i` outside the array is undefined behaviour in C++:
  the operations return `none` there.
* `recMsg` is the method as a function of the chars it reads; `recMsgSerial` is the same
  method on the transport `Serial`, with the `uint16_t` counter `charAvail`.
-/

/-- The fields of `class BufferRx`, in declaration order. -/
structure BufferRx where
  /-- Field `char buffer_rx [LONG_BUFFER_RX_GPS]`. -/
  buffer_rx : List Nat
  /-- Field `uint8_t flag_init`. -/
  flag_init : Nat
  /-- Field `uint8_t flag_end`. -/
  flag_end : Nat
  /-- Field `uint8_t pointer`. -/
  pointer : Nat
  /-- Field `char init_p`. -/
  init_p : Nat
  /-- Field `char end_p`. -/
  end_p : Nat
deriving DecidableEq, Repr

namespace BufferRx

/-- Method `void BufferRx::reset()`. -/
def reset (s : BufferRx) : BufferRx :=
  { s with pointer := 0, flag_end := 0, flag_init := 0 }

/-- Method `uint8_t BufferRx::hasMsg()`: the returned value (the product, truncated to 8 bits)
together with the object after the call. -/
def hasMsg (s : BufferRx) : Nat × BufferRx :=
  (s.flag_init * s.flag_end % 256, s)

/-- Constructor `BufferRx::BufferRx(char init_, char end_)`. It does not touch
`buffer_rx`; `mem` is whatever the array holds when the object comes to life. -/
def new (mem : List Nat) (init_ end_ : Nat) : BufferRx :=
  { buffer_rx := mem, flag_init := 0, pointer := 0, flag_end := 0,
    init_p := init_, end_p := end_ }

/-- The assignment `buffer_rx[i] = v` on an array of `N` chars. -/
def store (N : Nat) (buf : List Nat) (i v : Nat) : Option (List Nat) :=
  if i < N then some (buf.set i v) else none

/-- The body of the `while` loop of `recMsg` (source lines 66-85), run on the char that
`Serial.read()` has just returned. The comparisons `pointer < LONG_BUFFER_RX_GPS - 2` and
`pointer > LONG_BUFFER_RX_GPS - 1` are made in `int`. -/
def recMsgChar (N : Nat) (s : BufferRx) (incomingChar : Nat) : Option BufferRx :=
  if incomingChar = s.init_p ∧ s.flag_init = 0 ∧ s.pointer = 0 then
    (store N s.buffer_rx s.pointer incomingChar).map fun b =>
      { s with buffer_rx := b, flag_init := 1, pointer := (s.pointer + 1) % 256 }
  else if incomingChar = s.end_p ∧ s.flag_init ≠ 0 ∧ s.flag_end = 0 ∧ s.pointer ≠ 0 then
    (store N s.buffer_rx s.pointer incomingChar).bind fun b =>
      (store N b ((s.pointer + 1) % 256) 0).map fun b1 =>
        { s with buffer_rx := b1, flag_end := 1, pointer := (s.pointer + 1) % 256 }
  else if s.flag_init ≠ 0 ∧ s.flag_end = 0 ∧ (s.pointer : Int) < (N : Int) - 2 then
    (store N s.buffer_rx s.pointer incomingChar).map fun b =>
      { s with buffer_rx := b, pointer := (s.pointer + 1) % 256 }
  else if (s.pointer : Int) > (N : Int) - 1 then some s.reset
  else some s

/-- Method `void BufferRx::recMsg()`, as a function of the chars it reads: `chars` is the sequence
handed out by the `charAvail` successive calls of `Serial.read()`, one per iteration of the
loop. -/
def recMsg (N : Nat) (s : BufferRx) : List Nat → Option BufferRx
  | [] => some s
  | incomingChar :: rest => (recMsgChar N s incomingChar).bind fun s1 => recMsg N s1 rest

/-- Successive calls of `recMsg`, one per chunk. -/
def recMsgCalls (N : Nat) (s : BufferRx) : List (List Nat) → Option BufferRx
  | [] => some s
  | chunk :: rest => (recMsg N s chunk).bind fun s1 => recMsgCalls N s1 rest

/-- The states a program can bring a `BufferRx` with `N` buffer cells into: construction,
then any number of completed `recMsg()` and `reset()` calls. -/
inductive Reachable (N : Nat) : BufferRx → Prop
  | ctor (mem : List Nat) (init_ end_ : Nat) (hmem : mem.length = N) :
      Reachable N (new mem init_ end_)
  | recv {s s1 : BufferRx} (chars : List Nat) (hs : Reachable N s)
      (hcall : recMsg N s chars = some s1) : Reachable N s1
  | reset {s : BufferRx} (hs : Reachable N s) : Reachable N s.reset

/-- The five outcomes of the `if` cascade in the loop body of `recMsg`. -/
inductive Rule where
  | start
  | finish
  | body
  | overflow
  | ignore
deriving DecidableEq, Repr

/-- Which branch of the cascade (source lines 66-85) runs for `incomingChar` in state `s`:
the conditions are those of `recMsgChar`, in the same order. -/
def ruleOf (N : Nat) (s : BufferRx) (incomingChar : Nat) : Rule :=
  if incomingChar = s.init_p ∧ s.flag_init = 0 ∧ s.pointer = 0 then Rule.start
  else if incomingChar = s.end_p ∧ s.flag_init ≠ 0 ∧ s.flag_end = 0 ∧ s.pointer ≠ 0 then
    Rule.finish
  else if s.flag_init ≠ 0 ∧ s.flag_end = 0 ∧ (s.pointer : Int) < (N : Int) - 2 then Rule.body
  else if (s.pointer : Int) > (N : Int) - 1 then Rule.overflow
  else Rule.ignore

/-- The indices of `buffer_rx` that the branch assigns, in program order: the start branch
and the body branch assign `buffer_rx[pointer]`, the end branch assigns `buffer_rx[pointer]`
and, after `pointer = pointer + 1`, the sentinel `buffer_rx[pointer]`. -/
def storesOf (N : Nat) (s : BufferRx) (incomingChar : Nat) : List Nat :=
  match ruleOf N s incomingChar with
  | Rule.start => [s.pointer]
  | Rule.finish => [s.pointer, (s.pointer + 1) % 256]
  | Rule.body => [s.pointer]
  | Rule.overflow => []
  | Rule.ignore => []

/-- Whether the branch executes `pointer = pointer + 1`. -/
def advances (N : Nat) (s : BufferRx) (incomingChar : Nat) : Bool :=
  match ruleOf N s incomingChar with
  | Rule.start => true
  | Rule.finish => true
  | Rule.body => true
  | Rule.overflow => false
  | Rule.ignore => false

/-- Modelled from the spec: the transport `Serial` that `recMsg` drains, an external
collaborator that is not in the repository, with the two operations of its interface. The
field `pending` holds the chars ready to be read, oldest first, and the two counters log
the calls made on the transport. -/
structure Serial where
  /-- The chars waiting in the receive queue. -/
  pending : List Nat
  /-- How many times `Serial.available()` was called. -/
  availableCalls : Nat
  /-- How many times `Serial.read()` was called. -/
  readCalls : Nat
deriving DecidableEq, Repr

/-- Modelled from the spec: the transport call `Serial.available()`, missing from the
repository, returns the number of chars ready to read. -/
def Serial.available (ser : Serial) : Nat × Serial :=
  (ser.pending.length, { ser with availableCalls := ser.availableCalls + 1 })

/-- Modelled from the spec: the transport call `Serial.read()`, missing from the
repository, returns the next char, which leaves the queue. The spec is silent on an empty
queue; the Arduino call returns -1 there, which `char incomingChar` holds as the byte 255. -/
def Serial.read (ser : Serial) : Nat × Serial :=
  match ser.pending with
  | [] => (255, { ser with readCalls := ser.readCalls + 1 })
  | c :: rest => (c, { ser with pending := rest, readCalls := ser.readCalls + 1 })

/-- The loop `while (charAvail > 0) { incomingChar = Serial.read(); ...; charAvail--; }`
of `recMsg` (source lines 61-87), entered with the given value of `charAvail`. -/
def recMsgLoop (N : Nat) : Nat → BufferRx → Serial → Option (BufferRx × Serial)
  | 0, s, ser => some (s, ser)
  | charAvail + 1, s, ser =>
    (recMsgChar N s ser.read.1).bind fun s1 => recMsgLoop N charAvail s1 ser.read.2

/-- Method `void BufferRx::recMsg()` on the transport (source lines 54-88):
`charAvail = Serial.available()` truncates the count to the `uint16_t` variable, then the
loop runs. -/
def recMsgSerial (N : Nat) (s : BufferRx) (ser : Serial) : Option (BufferRx × Serial) :=
  recMsgLoop N (ser.available.1 % 65536) s ser.available.2

/-- Modelled from the spec: chars reaching the transport `Serial`, which is missing from
the repository; they queue up behind the chars already pending. -/
def Serial.arrive (ser : Serial) (chunk : List Nat) : Serial :=
  { ser with pending := ser.pending ++ chunk }

/-- Successive calls of the method `recMsg()` on the transport, one per chunk: the chars of
a chunk arrive, then the method is called. -/
def recMsgSerialCalls (N : Nat) :
    BufferRx → Serial → List (List Nat) → Option (BufferRx × Serial)
  | s, ser, [] => some (s, ser)
  | s, ser, chunk :: rest =>
    (recMsgSerial N s (ser.arrive chunk)).bind fun r => recMsgSerialCalls N r.1 r.2 rest

/-- Reference characterisation of the extractor, after the words of the claim: index `i`
holds the first occurrence of `x` in `chars`. -/
def FirstAt (x : Nat) (chars : List Nat) (i : Nat) : Prop :=
  chars[i]? = some x ∧ ∀ k : Nat, k < i → chars[k]? ≠ some x

/-- Reference characterisation of the extractor, after the words of the claim: `j` is the
first index greater than `i` that holds `x`. -/
def FirstAfter (x : Nat) (chars : List Nat) (i j : Nat) : Prop :=
  i < j ∧ chars[j]? = some x ∧ ∀ k : Nat, i < k → k < j → chars[k]? ≠ some x

/-- Reference characterisation of the extractor, after the words of the claim: the body
`chars[i+1 .. j-1]` between the two delimiters. -/
def between (chars : List Nat) (i j : Nat) : List Nat :=
  (chars.drop (i + 1)).take (j - i - 1)

/-- The layout of a frame in the buffer: while `flag_init` is set cell 0 holds the start
delimiter; while collecting no cell from 1 up to the pointer holds the end delimiter; once
`flag_end` is set the end delimiter sits in the last cell before the pointer, preceded by
no other one from cell 1 on, and the cell at the pointer holds 0. -/
def Shape (s : BufferRx) : Prop :=
  (s.flag_init ≠ 0 → s.buffer_rx[0]? = some s.init_p) ∧
  (s.flag_init ≠ 0 → s.flag_end = 0 →
    ∀ i : Nat, 1 ≤ i → i < s.pointer → s.buffer_rx[i]? ≠ some s.end_p) ∧
  (s.flag_end ≠ 0 →
    (∀ i : Nat, 1 ≤ i → i + 1 < s.pointer → s.buffer_rx[i]? ≠ some s.end_p) ∧
    s.buffer_rx[s.pointer - 1]? = some s.end_p ∧ s.buffer_rx[s.pointer]? = some 0)

/-- An 8-cell array as the constructor may find it. -/
def mem8 : List Nat := [9, 9, 9, 9, 9, 9, 9, 9]

/-- The state of `new mem8 '$' '*'` once it has read `$A`: collecting. -/
def stCollecting : BufferRx := ⟨[36, 65, 9, 9, 9, 9, 9, 9], 1, 0, 2, 36, 42⟩

/-- The state of `new mem8 '$' '*'` once it has read `$A*`: complete. -/
def stComplete : BufferRx := ⟨[36, 65, 42, 0, 9, 9, 9, 9], 1, 1, 3, 36, 42⟩

/-- The state of `new mem8 '$' '*'` once it has read `$ABCDE*`: complete, array full. -/
def stCompleteLong : BufferRx := ⟨[36, 65, 66, 67, 68, 69, 42, 0], 1, 1, 7, 36, 42⟩

/-- Both flags hold 0 or 1. -/
def FlagsBinary (s : BufferRx) : Prop :=
  (s.flag_init = 0 ∨ s.flag_init = 1) ∧ (s.flag_end = 0 ∨ s.flag_end = 1)

/-- The three shapes of a state when the array has `N` cells: idle, collecting, complete. -/
def Inv (N : Nat) (s : BufferRx) : Prop :=
  s.buffer_rx.length = N ∧
  ((s.flag_init = 0 ∧ s.flag_end = 0 ∧ s.pointer = 0) ∨
   (s.flag_init = 1 ∧ s.flag_end = 0 ∧ 1 ≤ s.pointer ∧ s.pointer + 2 ≤ N) ∨
   (s.flag_init = 1 ∧ s.flag_end = 1 ∧ 2 ≤ s.pointer ∧ s.pointer + 1 ≤ N))

end BufferRx

/-! ## The rules of the byte classifier -/

namespace BufferRx

theorem recMsgChar_start (N : Nat) (s : BufferRx) (c : Nat) (hc : c = s.init_p)
    (hi : s.flag_init = 0) (hp : s.pointer = 0) (hN : 0 < N) :
    recMsgChar N s c =
      some { s with buffer_rx := s.buffer_rx.set 0 c, flag_init := 1, pointer := 1 } := by
  simp [recMsgChar, store, hc, hi, hp, hN]

theorem recMsgChar_end (N : Nat) (s : BufferRx) (c : Nat) (hc : c = s.end_p)
    (hi : s.flag_init ≠ 0) (he : s.flag_end = 0) (hp : s.pointer ≠ 0)
    (hN : s.pointer + 1 < N) (h8 : N ≤ 256) :
    recMsgChar N s c =
      some { s with buffer_rx := (s.buffer_rx.set s.pointer c).set (s.pointer + 1) 0,
                    flag_end := 1, pointer := s.pointer + 1 } := by
  have h1 : (s.pointer + 1) % 256 = s.pointer + 1 := Nat.mod_eq_of_lt (by omega)
  have h2 : s.pointer < N := by omega
  simp [recMsgChar, store, hc, hi, he, hp, hN, h1, h2]

theorem recMsgChar_body (N : Nat) (s : BufferRx) (c : Nat) (hc : c ≠ s.end_p)
    (hi : s.flag_init ≠ 0) (he : s.flag_end = 0) (hN : s.pointer + 2 < N) (h8 : N ≤ 256) :
    recMsgChar N s c =
      some { s with buffer_rx := s.buffer_rx.set s.pointer c, pointer := s.pointer + 1 } := by
  have h1 : (s.pointer + 1) % 256 = s.pointer + 1 := Nat.mod_eq_of_lt (by omega)
  have h2 : s.pointer < N := by omega
  have h3 : (s.pointer : Int) < (N : Int) - 2 := by omega
  simp [recMsgChar, store, hc, hi, he, h1, h2, h3]

theorem recMsgChar_completed (N : Nat) (s : BufferRx) (c : Nat)
    (hi : s.flag_init ≠ 0) (he : s.flag_end ≠ 0) (hN : s.pointer + 1 ≤ N) :
    recMsgChar N s c = some s := by
  have h3 : ¬ (s.pointer : Int) > (N : Int) - 1 := by omega
  simp [recMsgChar, hi, he, h3]

theorem recMsgChar_full (N : Nat) (s : BufferRx) (c : Nat) (hc : c ≠ s.end_p)
    (hi : s.flag_init ≠ 0) (hlo : N ≤ s.pointer + 2) (hN : s.pointer + 1 ≤ N) :
    recMsgChar N s c = some s := by
  have h3 : ¬ (s.pointer : Int) > (N : Int) - 1 := by omega
  have h4 : ¬ (s.pointer : Int) < (N : Int) - 2 := by omega
  simp [recMsgChar, hc, hi, h3, h4]

theorem recMsgChar_stray (N : Nat) (s : BufferRx) (c : Nat) (hc : c ≠ s.init_p)
    (hi : s.flag_init = 0) (hp : s.pointer = 0) (hN : 1 ≤ N) :
    recMsgChar N s c = some s := by
  have h3 : ¬ (0 : Int) > (N : Int) - 1 := by omega
  simp [recMsgChar, hc, hi, hp, h3]

/-! ## The loop -/

theorem recMsg_append (N : Nat) (s : BufferRx) (xs ys : List Nat) :
    recMsg N s (xs ++ ys) = (recMsg N s xs).bind fun s1 => recMsg N s1 ys := by
  induction xs generalizing s with
  | nil => simp [recMsg]
  | cons c rest ih =>
    simp only [List.cons_append, recMsg]
    cases h : recMsgChar N s c with
    | none => simp
    | some s1 => simpa using ih s1

theorem recMsgCalls_append (N : Nat) (s : BufferRx) (cs ds : List (List Nat)) :
    recMsgCalls N s (cs ++ ds) = (recMsgCalls N s cs).bind fun s1 => recMsgCalls N s1 ds := by
  induction cs generalizing s with
  | nil => simp [recMsgCalls]
  | cons c rest ih =>
    simp only [List.cons_append, recMsgCalls]
    cases h : recMsg N s c with
    | none => simp
    | some s1 => simpa using ih s1

theorem recMsgCalls_flatten (N : Nat) (s : BufferRx) (chunks : List (List Nat)) :
    recMsgCalls N s chunks = recMsg N s chunks.flatten := by
  induction chunks generalizing s with
  | nil => simp [recMsgCalls, recMsg]
  | cons c rest ih =>
    simp only [recMsgCalls, List.flatten_cons, recMsg_append]
    cases h : recMsg N s c with
    | none => simp
    | some s1 => simpa using ih s1

/-! ## Invariants of the reachable states -/

theorem recMsgChar_flags (N : Nat) (s s1 : BufferRx) (c : Nat)
    (h : recMsgChar N s c = some s1) (hf : FlagsBinary s) : FlagsBinary s1 := by
  unfold recMsgChar store at h
  unfold FlagsBinary at *
  split_ifs at h <;> simp at h <;> subst h <;> (try simp [BufferRx.reset]) <;> tauto

theorem recMsg_flags (N : Nat) (s s1 : BufferRx) (chars : List Nat)
    (h : recMsg N s chars = some s1) (hf : FlagsBinary s) : FlagsBinary s1 := by
  induction chars generalizing s with
  | nil => simp [recMsg] at h; subst h; exact hf
  | cons c rest ih =>
    simp only [recMsg] at h
    cases hc : recMsgChar N s c with
    | none => simp [hc] at h
    | some s2 =>
      rw [hc] at h
      exact ih s2 h (recMsgChar_flags N s s2 c hc hf)

theorem Reachable.flags {N : Nat} {s : BufferRx} (h : Reachable N s) : FlagsBinary s := by
  induction h with
  | ctor mem a b hmem => simp [FlagsBinary, new]
  | recv chars _ hcall ih => exact recMsg_flags N _ _ chars hcall ih
  | reset _ _ => simp [FlagsBinary, BufferRx.reset]

theorem recMsgChar_inv (N : Nat) (s : BufferRx) (c : Nat) (h3 : 3 ≤ N) (h8 : N ≤ 256)
    (hs : Inv N s) :
    ∃ s1, recMsgChar N s c = some s1 ∧ Inv N s1 ∧ s1.init_p = s.init_p ∧
      s1.end_p = s.end_p := by
  obtain ⟨hlen, hidle | hcoll | hdone⟩ := hs
  · obtain ⟨hi, he, hp⟩ := hidle
    by_cases hc : c = s.init_p
    · refine ⟨_, recMsgChar_start N s c hc hi hp (by omega), ?_, rfl, rfl⟩
      refine ⟨by simpa using hlen, Or.inr (Or.inl ⟨rfl, he, ?_, ?_⟩)⟩ <;> (simp; try omega)
    · exact ⟨s, recMsgChar_stray N s c hc hi hp (by omega), ⟨hlen, Or.inl ⟨hi, he, hp⟩⟩,
        rfl, rfl⟩
  · obtain ⟨hi, he, hp1, hp2⟩ := hcoll
    by_cases hc : c = s.end_p
    · refine ⟨_, recMsgChar_end N s c hc (by omega) he (by omega) (by omega) h8, ?_, rfl, rfl⟩
      refine ⟨by simpa using hlen, Or.inr (Or.inr ⟨hi, rfl, ?_, ?_⟩)⟩ <;> (simp; omega)
    · by_cases hroom : s.pointer + 2 < N
      · refine ⟨_, recMsgChar_body N s c hc (by omega) he hroom h8, ?_, rfl, rfl⟩
        refine ⟨by simpa using hlen, Or.inr (Or.inl ⟨hi, he, ?_, ?_⟩)⟩ <;> (simp; try omega)
      · exact ⟨s, recMsgChar_full N s c hc (by omega) (by omega) (by omega),
          ⟨hlen, Or.inr (Or.inl ⟨hi, he, hp1, hp2⟩)⟩, rfl, rfl⟩
  · obtain ⟨hi, he, hp1, hp2⟩ := hdone
    exact ⟨s, recMsgChar_completed N s c (by omega) (by omega) hp2,
      ⟨hlen, Or.inr (Or.inr ⟨hi, he, hp1, hp2⟩)⟩, rfl, rfl⟩

theorem recMsg_inv (N : Nat) (s : BufferRx) (chars : List Nat) (h3 : 3 ≤ N) (h8 : N ≤ 256)
    (hs : Inv N s) :
    ∃ s1, recMsg N s chars = some s1 ∧ Inv N s1 ∧ s1.init_p = s.init_p ∧
      s1.end_p = s.end_p := by
  induction chars generalizing s with
  | nil => exact ⟨s, rfl, hs, rfl, rfl⟩
  | cons c rest ih =>
    obtain ⟨s2, h2, hinv2, hi2, he2⟩ := recMsgChar_inv N s c h3 h8 hs
    obtain ⟨s1, h1, hinv1, hi1, he1⟩ := ih s2 hinv2
    exact ⟨s1, by simp [recMsg, h2, h1], hinv1, hi1.trans hi2, he1.trans he2⟩

theorem Reachable.inv {N : Nat} {s : BufferRx} (h : Reachable N s) (h3 : 3 ≤ N)
    (h8 : N ≤ 256) : Inv N s := by
  induction h with
  | ctor mem a b hmem => exact ⟨hmem, Or.inl ⟨rfl, rfl, rfl⟩⟩
  | recv chars _ hcall ih =>
    obtain ⟨s1, h1, hinv, _, _⟩ := recMsg_inv N _ chars h3 h8 ih
    rw [h1] at hcall
    cases hcall
    exact hinv
  | reset _ ih => exact ⟨ih.1, Or.inl ⟨rfl, rfl, rfl⟩⟩

theorem recMsg_completed (N : Nat) (s : BufferRx) (chars : List Nat)
    (hi : s.flag_init ≠ 0) (he : s.flag_end ≠ 0) (hN : s.pointer + 1 ≤ N) :
    recMsg N s chars = some s := by
  induction chars with
  | nil => rfl
  | cons c rest ih => simp [recMsg, recMsgChar_completed N s c hi he hN, ih]

theorem recMsg_stray (N : Nat) (s : BufferRx) (chars : List Nat)
    (hi : s.flag_init = 0) (hp : s.pointer = 0) (hN : 1 ≤ N)
    (hc : ∀ c ∈ chars, c ≠ s.init_p) : recMsg N s chars = some s := by
  induction chars with
  | nil => rfl
  | cons c rest ih =>
    have h1 := recMsgChar_stray N s c (hc c (by simp)) hi hp hN
    simp [recMsg, h1, ih (fun d hd => hc d (by simp [hd]))]

/-! ## One whole frame -/

theorem take_set_self (l : List Nat) (p v : Nat) : (l.set p v).take p = l.take p := by
  induction l generalizing p with
  | nil => simp
  | cons a rest ih =>
    cases p with
    | zero => simp
    | succ q => simp [ih q]

theorem take_set_succ (l : List Nat) (p v : Nat) (h : p < l.length) :
    (l.set p v).take (p + 1) = l.take p ++ [v] := by
  induction l generalizing p with
  | nil => simp at h
  | cons a rest ih =>
    cases p with
    | zero => simp
    | succ q =>
      have hq : q < rest.length := by simpa using h
      simp [ih q hq]

theorem recMsg_body (N : Nat) (s : BufferRx) (body : List Nat) (h8 : N ≤ 256)
    (hi : s.flag_init ≠ 0) (he : s.flag_end = 0)
    (hroom : s.pointer + body.length + 2 ≤ N) (hlen : s.buffer_rx.length = N)
    (hb : ∀ b ∈ body, b ≠ s.end_p) :
    ∃ s1, recMsg N s body = some s1 ∧ s1.flag_init = s.flag_init ∧ s1.flag_end = 0 ∧
      s1.pointer = s.pointer + body.length ∧ s1.init_p = s.init_p ∧ s1.end_p = s.end_p ∧
      s1.buffer_rx.length = N ∧
      s1.buffer_rx.take (s.pointer + body.length) = s.buffer_rx.take s.pointer ++ body := by
  induction body generalizing s with
  | nil => exact ⟨s, rfl, rfl, he, rfl, rfl, rfl, hlen, by simp⟩
  | cons c rest ih =>
    simp only [List.length_cons] at hroom
    have hstep := recMsgChar_body N s c (hb c (by simp)) hi he (by omega) h8
    obtain ⟨s1, h1, hf, hg, hptr, hip, hep, hl, hbuf⟩ :=
      ih { s with buffer_rx := s.buffer_rx.set s.pointer c, pointer := s.pointer + 1 }
        hi he (by simp; omega) (by simpa using hlen) (fun b hb1 => hb b (by simp [hb1]))
    simp only at hf hptr hip hep hbuf
    refine ⟨s1, by simp [recMsg, hstep, h1], hf, hg, ?_, hip, hep, hl, ?_⟩
    · simp only [List.length_cons]
      rw [hptr]
      omega
    · have hpl : s.pointer < s.buffer_rx.length := by omega
      simp only [List.length_cons]
      rw [show s.pointer + (rest.length + 1) = s.pointer + 1 + rest.length by omega]
      rw [hbuf]
      simp [take_set_succ _ _ _ hpl]

theorem recMsg_frame (N : Nat) (s : BufferRx) (body : List Nat) (h8 : N ≤ 256)
    (hi : s.flag_init = 0) (he : s.flag_end = 0) (hp : s.pointer = 0)
    (hlen : s.buffer_rx.length = N) (hk : body.length + 3 ≤ N)
    (hb : ∀ b ∈ body, b ≠ s.end_p) :
    ∃ s1, recMsg N s (s.init_p :: body ++ [s.end_p]) = some s1 ∧ s1.flag_init = 1 ∧
      s1.flag_end = 1 ∧ s1.pointer = body.length + 2 ∧ s1.init_p = s.init_p ∧
      s1.end_p = s.end_p ∧ s1.buffer_rx.length = N ∧
      s1.buffer_rx.take (body.length + 3) = s.init_p :: body ++ [s.end_p, 0] := by
  have hstart := recMsgChar_start N s s.init_p rfl hi hp (by omega)
  obtain ⟨s2, h2, hf2, hg2, hptr2, hip2, hep2, hl2, hbuf2⟩ :=
    recMsg_body N
      { s with buffer_rx := s.buffer_rx.set 0 s.init_p, flag_init := 1, pointer := 1 }
      body h8 (by simp) he (by simp; omega) (by simpa using hlen) hb
  simp only at hf2 hptr2 hip2 hep2 hbuf2
  have hend := recMsgChar_end N s2 s.end_p hep2.symm (by omega) hg2 (by omega) (by omega) h8
  refine ⟨{ s2 with buffer_rx := (s2.buffer_rx.set s2.pointer s.end_p).set (s2.pointer + 1) 0,
                    flag_end := 1, pointer := s2.pointer + 1 },
    ?_, hf2, rfl, ?_, hip2, hep2, by simpa using hl2, ?_⟩
  · simp [recMsg, hstart, recMsg_append, h2, hend]
  · simp only [hptr2]
    omega
  · have hq : s2.pointer + 1 < ((s2.buffer_rx.set s2.pointer s.end_p)).length := by
      simp; omega
    have hq1 : s2.pointer < s2.buffer_rx.length := by omega
    have h0 : 0 < s.buffer_rx.length := by omega
    have e : body.length + 3 = s2.pointer + 1 + 1 := by omega
    simp only [e]
    rw [take_set_succ _ _ _ hq, take_set_succ _ _ _ hq1, hptr2, hbuf2]
    have := take_set_succ s.buffer_rx 0 s.init_p h0
    simp at this
    simp [this]

/-! ## Example states -/

theorem stCollecting_reachable : Reachable 8 stCollecting :=
  Reachable.recv [36, 65] (Reachable.ctor mem8 36 42 rfl) (by decide)

theorem stComplete_reachable : Reachable 8 stComplete :=
  Reachable.recv [42] stCollecting_reachable (by decide)

theorem stCompleteLong_reachable : Reachable 8 stCompleteLong :=
  Reachable.recv [36, 65, 66, 67, 68, 69, 42] (Reachable.ctor mem8 36 42 rfl) (by decide)

/-! ## The claims -/

/-- C1: on an array of `N` cells, `3 ≤ N ≤ 256`, a freshly constructed collector (any two
delimiters, equal or not) that reads `init_, b1, ..., bk, end_` in one `recMsg()` call, with
`k ≤ N - 3` and no `bi` equal to `end_`, returns with `hasMsg() ≠ 0`, `pointer = k + 2`, and
the buffer cells `0 .. k+2` holding `init_, b1, ..., bk, end_, 0`. -/
theorem recMsg_fresh_frame (N : Nat) (mem : List Nat) (init_ end_ : Nat) (body : List Nat)
    (h3 : 3 ≤ N) (h8 : N ≤ 256) (hmem : mem.length = N) (hk : body.length ≤ N - 3)
    (hb : ∀ b ∈ body, b ≠ end_) :
    ∃ s1, recMsg N (new mem init_ end_) (init_ :: body ++ [end_]) = some s1 ∧
      (hasMsg s1).1 ≠ 0 ∧ s1.pointer = body.length + 2 ∧
      s1.buffer_rx.take (body.length + 3) = init_ :: body ++ [end_, 0] := by
  obtain ⟨s1, h1, hf, hg, hptr, _, _, _, hbuf⟩ :=
    recMsg_frame N (new mem init_ end_) body h8 rfl rfl rfl hmem (by omega) hb
  exact ⟨s1, h1, by simp [hasMsg, hf, hg], hptr, hbuf⟩

/-- Witness for C1: `$ABC*` read by a fresh collector over an 8-cell array of garbage. -/
theorem recMsg_fresh_frame_witness :
    (3 ≤ 8 ∧ 8 ≤ 256 ∧ [9, 9, 9, 9, 9, 9, 9, 9].length = 8 ∧ [65, 66, 67].length ≤ 8 - 3 ∧
      ∀ b ∈ [65, 66, 67], b ≠ 42) ∧
    ∃ s1, recMsg 8 (new [9, 9, 9, 9, 9, 9, 9, 9] 36 42) (36 :: [65, 66, 67] ++ [42]) = some s1 ∧
      (hasMsg s1).1 ≠ 0 ∧ s1.pointer = [65, 66, 67].length + 2 ∧
      s1.buffer_rx.take ([65, 66, 67].length + 3) = 36 :: [65, 66, 67] ++ [42, 0] :=
  ⟨by decide, recMsg_fresh_frame 8 [9, 9, 9, 9, 9, 9, 9, 9] 36 42 [65, 66, 67]
    (by decide) (by decide) rfl (by decide) (by decide)⟩

/-- C3: the code at the failing input. On an 8-cell array a fresh collector reads `$` and
then eight `A`: it is not reset, it stays started with `pointer = 6` and five `A` in the
buffer, and a `*` read next completes that truncated message. -/
theorem recMsg_overflow_keeps_frame :
    recMsg 8 (new [0, 0, 0, 0, 0, 0, 0, 0] 36 42) (36 :: List.replicate 8 65) =
      some ⟨[36, 65, 65, 65, 65, 65, 0, 0], 1, 0, 6, 36, 42⟩ ∧
    recMsg 8 ⟨[36, 65, 65, 65, 65, 65, 0, 0], 1, 0, 6, 36, 42⟩ [42] =
      some ⟨[36, 65, 65, 65, 65, 65, 42, 0], 1, 1, 7, 36, 42⟩ := by
  decide

/-- C4: in every reachable state both flags are 0 or 1, `hasMsg()` returns a non-zero
value exactly when `flag_init` and `flag_end` are both set, and `hasMsg()` leaves the
object as it was. -/
theorem hasMsg_reachable (N : Nat) (s : BufferRx) (h : Reachable N s) :
    (s.flag_init = 0 ∨ s.flag_init = 1) ∧ (s.flag_end = 0 ∨ s.flag_end = 1) ∧
    ((hasMsg s).1 ≠ 0 ↔ s.flag_init ≠ 0 ∧ s.flag_end ≠ 0) ∧ (hasMsg s).2 = s := by
  obtain ⟨hi, he⟩ := h.flags
  refine ⟨hi, he, ?_, rfl⟩
  rcases hi with hi | hi <;> rcases he with he | he <;> simp [hasMsg, hi, he]

/-- Witness for C4: the state after a fresh collector has read `$A*`. -/
theorem hasMsg_reachable_witness :
    Reachable 8 stComplete ∧
    ((stComplete.flag_init = 0 ∨ stComplete.flag_init = 1) ∧
     (stComplete.flag_end = 0 ∨ stComplete.flag_end = 1) ∧
     ((hasMsg stComplete).1 ≠ 0 ↔ stComplete.flag_init ≠ 0 ∧ stComplete.flag_end ≠ 0) ∧
     (hasMsg stComplete).2 = stComplete) :=
  ⟨stComplete_reachable, hasMsg_reachable 8 stComplete stComplete_reachable⟩

/-- C5: on an array of `N` cells, `3 ≤ N ≤ 256`, a reachable state with `flag_end` set is
left exactly as it is by `recMsg()` whatever chars are read, delimiters included, and by
`hasMsg()`; `reset()` is what clears `flag_end`. -/
theorem recMsg_holds_completed (N : Nat) (s : BufferRx) (h3 : 3 ≤ N) (h8 : N ≤ 256)
    (h : Reachable N s) (he : s.flag_end ≠ 0) :
    (∀ chars : List Nat, recMsg N s chars = some s) ∧ (hasMsg s).2 = s ∧
    s.reset.flag_end = 0 ∧ (hasMsg s.reset).1 = 0 := by
  obtain ⟨_, hidle | hcoll | hdone⟩ := h.inv h3 h8
  · exact absurd hidle.2.1 he
  · exact absurd hcoll.2.1 he
  · exact ⟨fun chars => recMsg_completed N s chars (by omega) he hdone.2.2.2, rfl, rfl, rfl⟩

/-- Witness for C5: the complete state after `$A*`, 8 cells. -/
theorem recMsg_holds_completed_witness :
    (3 ≤ 8 ∧ 8 ≤ 256 ∧ Reachable 8 stComplete ∧ stComplete.flag_end ≠ 0) ∧
    ((∀ chars : List Nat, recMsg 8 stComplete chars = some stComplete) ∧
     (hasMsg stComplete).2 = stComplete ∧ stComplete.reset.flag_end = 0 ∧ (hasMsg stComplete.reset).1 = 0) :=
  ⟨⟨by decide, by decide, stComplete_reachable, by decide⟩,
   recMsg_holds_completed 8 stComplete (by decide) (by decide) stComplete_reachable
     (by decide)⟩

/-- C6: on an array of `N` cells, `3 ≤ N ≤ 256`, in a reachable state with `flag_init` set,
reading one start delimiter leaves `flag_init` set, does not decrease `pointer`, and leaves
every buffer cell below the old `pointer` as it was. -/
theorem recMsg_start_while_started (N : Nat) (s : BufferRx) (h3 : 3 ≤ N) (h8 : N ≤ 256)
    (h : Reachable N s) (hi : s.flag_init ≠ 0) :
    ∃ s1, recMsg N s [s.init_p] = some s1 ∧ s1.flag_init ≠ 0 ∧ s.pointer ≤ s1.pointer ∧
      ∀ i, i < s.pointer → s1.buffer_rx[i]? = s.buffer_rx[i]? := by
  obtain ⟨_, hidle | hcoll | hdone⟩ := h.inv h3 h8
  · exact absurd hidle.1 hi
  · obtain ⟨_, he, hp1, hp2⟩ := hcoll
    by_cases hc : s.init_p = s.end_p
    · have hstep := recMsgChar_end N s s.init_p hc hi he (by omega) (by omega) h8
      refine ⟨{ s with buffer_rx := (s.buffer_rx.set s.pointer s.init_p).set (s.pointer + 1) 0,
                        flag_end := 1, pointer := s.pointer + 1 },
        by simp [recMsg, hstep], hi, by simp, fun i hlt => ?_⟩
      have e1 : s.pointer + 1 ≠ i := by omega
      have e2 : s.pointer ≠ i := by omega
      simp [List.getElem?_set_ne e1, List.getElem?_set_ne e2]
    · by_cases hroom : s.pointer + 2 < N
      · have hstep := recMsgChar_body N s s.init_p hc hi he hroom h8
        refine ⟨{ s with buffer_rx := s.buffer_rx.set s.pointer s.init_p,
                          pointer := s.pointer + 1 },
          by simp [recMsg, hstep], hi, by simp, fun i hlt => ?_⟩
        have e2 : s.pointer ≠ i := by omega
        simp [List.getElem?_set_ne e2]
      · have hstep := recMsgChar_full N s s.init_p hc hi (by omega) (by omega)
        exact ⟨s, by simp [recMsg, hstep], hi, le_refl _, fun _ _ => rfl⟩
  · have hstep := recMsgChar_completed N s s.init_p hi (by omega) hdone.2.2.2
    exact ⟨s, by simp [recMsg, hstep], hi, le_refl _, fun _ _ => rfl⟩

/-- Witness for C6: the collecting state after `$A`, 8 cells. -/
theorem recMsg_start_while_started_witness :
    (3 ≤ 8 ∧ 8 ≤ 256 ∧ Reachable 8 stCollecting ∧ stCollecting.flag_init ≠ 0) ∧
    ∃ s1, recMsg 8 stCollecting [stCollecting.init_p] = some s1 ∧ s1.flag_init ≠ 0 ∧
      stCollecting.pointer ≤ s1.pointer ∧
      ∀ i, i < stCollecting.pointer → s1.buffer_rx[i]? = stCollecting.buffer_rx[i]? :=
  ⟨⟨by decide, by decide, stCollecting_reachable, by decide⟩,
   recMsg_start_while_started 8 stCollecting (by decide) (by decide) stCollecting_reachable
     (by decide)⟩

/-- C7, as stated, fails: the collector that has read `$A` (8 cells, delimiters `$` and
`*`) is not idle, and the `$` it reads next is not ignored but stored as a body char, the
pointer going from 2 to 3. -/
theorem recMsg_start_while_collecting_stored :
    Reachable 8 stCollecting ∧
    (stCollecting.flag_init ≠ 0 ∨ 0 < stCollecting.pointer) ∧
    stCollecting.init_p ≠ stCollecting.end_p ∧
    recMsg 8 stCollecting [stCollecting.init_p] =
      some ⟨[36, 65, 36, 9, 9, 9, 9, 9], 1, 0, 3, 36, 42⟩ ∧
    recMsg 8 stCollecting [stCollecting.init_p] ≠ some stCollecting :=
  ⟨stCollecting_reachable, by decide, by decide, by decide, by decide⟩

/-- C7, amended: on an array of `N` cells, `3 ≤ N ≤ 256`, in a reachable state that is not
idle, reading one start delimiter (different from the end delimiter) never restarts the
frame. When `flag_end` is set or `pointer ≥ N - 2` the state is unchanged; otherwise the
char is stored at `pointer` like any body char and `pointer` advances by one, nothing else
changing. -/
theorem recMsg_start_while_not_idle (N : Nat) (s : BufferRx) (h3 : 3 ≤ N) (h8 : N ≤ 256)
    (h : Reachable N s) (hbusy : s.flag_init ≠ 0 ∨ 0 < s.pointer)
    (hd : s.init_p ≠ s.end_p) :
    recMsg N s [s.init_p] =
      some (if s.flag_end = 0 ∧ s.pointer + 2 < N then
              { s with buffer_rx := s.buffer_rx.set s.pointer s.init_p,
                       pointer := s.pointer + 1 }
            else s) := by
  obtain ⟨_, hidle | hcoll | hdone⟩ := h.inv h3 h8
  · rcases hbusy with hb | hb
    · exact absurd hidle.1 hb
    · omega
  · obtain ⟨hi, he, hp1, hp2⟩ := hcoll
    by_cases hroom : s.pointer + 2 < N
    · have hstep := recMsgChar_body N s s.init_p hd (by omega) he hroom h8
      simp [recMsg, hstep, he, hroom]
    · have hstep := recMsgChar_full N s s.init_p hd (by omega) (by omega) (by omega)
      simp [recMsg, hstep, hroom]
  · obtain ⟨hi, he, hp1, hp2⟩ := hdone
    have hstep := recMsgChar_completed N s s.init_p (by omega) (by omega) hp2
    simp [recMsg, hstep, he]

/-- Witness for amended C7: the collecting state after `$A`, 8 cells. -/
theorem recMsg_start_while_not_idle_witness :
    (3 ≤ 8 ∧ 8 ≤ 256 ∧ Reachable 8 stCollecting ∧
      (stCollecting.flag_init ≠ 0 ∨ 0 < stCollecting.pointer) ∧
      stCollecting.init_p ≠ stCollecting.end_p) ∧
    recMsg 8 stCollecting [stCollecting.init_p] =
      some (if stCollecting.flag_end = 0 ∧ stCollecting.pointer + 2 < 8 then
              { stCollecting with
                  buffer_rx := stCollecting.buffer_rx.set stCollecting.pointer
                    stCollecting.init_p,
                  pointer := stCollecting.pointer + 1 }
            else stCollecting) :=
  ⟨⟨by decide, by decide, stCollecting_reachable, by decide, by decide⟩,
   recMsg_start_while_not_idle 8 stCollecting (by decide) (by decide)
     stCollecting_reachable (by decide) (by decide)⟩

/-- C8: on an array of `N` cells, `3 ≤ N ≤ 256`, from a reachable state with
`hasMsg() ≠ 0`, `reset()` followed by reading a well-formed frame `init_p, b1..bk, end_p`
(`k ≤ N - 3`, no `bi` equal to `end_p`) gives `hasMsg() ≠ 0`, `pointer = k + 2` and the
buffer cells `0 .. k+2` equal to `init_p, b1..bk, end_p, 0`: the same pointer and the same
cells as a freshly constructed collector reading that frame. -/
theorem recMsg_after_reset_independent (N : Nat) (s : BufferRx) (mem body : List Nat)
    (h3 : 3 ≤ N) (h8 : N ≤ 256) (h : Reachable N s) (_hm : (hasMsg s).1 ≠ 0)
    (hmem : mem.length = N) (hk : body.length ≤ N - 3) (hb : ∀ b ∈ body, b ≠ s.end_p) :
    ∃ s1 s2, recMsg N s.reset (s.init_p :: body ++ [s.end_p]) = some s1 ∧
      recMsg N (new mem s.init_p s.end_p) (s.init_p :: body ++ [s.end_p]) = some s2 ∧
      (hasMsg s1).1 ≠ 0 ∧ s1.pointer = body.length + 2 ∧ s2.pointer = s1.pointer ∧
      s1.buffer_rx.take (body.length + 3) = s2.buffer_rx.take (body.length + 3) ∧
      s1.buffer_rx.take (body.length + 3) = s.init_p :: body ++ [s.end_p, 0] := by
  have hlen := (h.inv h3 h8).1
  obtain ⟨s1, h1, hf1, hg1, hptr1, _, _, _, hbuf1⟩ :=
    recMsg_frame N s.reset body h8 rfl rfl rfl hlen (by omega) hb
  obtain ⟨s2, h2, _, _, hptr2, _, _, _, hbuf2⟩ :=
    recMsg_frame N (new mem s.init_p s.end_p) body h8 rfl rfl rfl hmem (by omega) hb
  exact ⟨s1, s2, h1, h2, by simp [hasMsg, hf1, hg1], hptr1, hptr2.trans hptr1.symm,
    hbuf1.trans hbuf2.symm, hbuf1⟩

/-- Witness for C8: the full 8-cell array holding `$ABCDE*`, then `reset()` and `$B*`. -/
theorem recMsg_after_reset_independent_witness :
    (3 ≤ 8 ∧ 8 ≤ 256 ∧ Reachable 8 stCompleteLong ∧ (hasMsg stCompleteLong).1 ≠ 0 ∧
      mem8.length = 8 ∧ [66].length ≤ 8 - 3 ∧ ∀ b ∈ [66], b ≠ stCompleteLong.end_p) ∧
    ∃ s1 s2,
      recMsg 8 stCompleteLong.reset
        (stCompleteLong.init_p :: [66] ++ [stCompleteLong.end_p]) = some s1 ∧
      recMsg 8 (new mem8 stCompleteLong.init_p stCompleteLong.end_p)
        (stCompleteLong.init_p :: [66] ++ [stCompleteLong.end_p]) = some s2 ∧
      (hasMsg s1).1 ≠ 0 ∧ s1.pointer = [66].length + 2 ∧ s2.pointer = s1.pointer ∧
      s1.buffer_rx.take ([66].length + 3) = s2.buffer_rx.take ([66].length + 3) ∧
      s1.buffer_rx.take ([66].length + 3) =
        stCompleteLong.init_p :: [66] ++ [stCompleteLong.end_p, 0] :=
  ⟨⟨by decide, by decide, stCompleteLong_reachable, by decide, rfl, by decide, by decide⟩,
   recMsg_after_reset_independent 8 stCompleteLong mem8 [66] (by decide) (by decide)
     stCompleteLong_reachable (by decide) rfl (by decide) (by decide)⟩

/-- C9: from every state `reset()` gives `pointer = 0`, `flag_init = 0`, `flag_end = 0`, so
that `hasMsg()` returns 0; it leaves the buffer and both delimiters as they were; and a
second `reset()` changes nothing more. -/
theorem reset_idle (s : BufferRx) :
    s.reset.pointer = 0 ∧ s.reset.flag_init = 0 ∧ s.reset.flag_end = 0 ∧
    (hasMsg s.reset).1 = 0 ∧ s.reset.buffer_rx = s.buffer_rx ∧
    s.reset.init_p = s.init_p ∧ s.reset.end_p = s.end_p ∧ s.reset.reset = s.reset :=
  ⟨rfl, rfl, rfl, rfl, rfl, rfl, rfl, rfl⟩

/-- C10: on an array of `N ≥ 1` cells, an idle state (`pointer = 0`, both flags clear) is
left exactly as it is by a `recMsg()` call that reads chars none of which is a delimiter;
in particular `pointer` stays 0 and `flag_init` stays clear. -/
theorem recMsg_stray_idle (N : Nat) (s : BufferRx) (chars : List Nat) (hN : 1 ≤ N)
    (hp : s.pointer = 0) (hi : s.flag_init = 0) (he : s.flag_end = 0)
    (hc : ∀ c ∈ chars, c ≠ s.init_p ∧ c ≠ s.end_p) :
    ∃ s1, recMsg N s chars = some s1 ∧ s1 = s ∧ s1.pointer = 0 ∧ s1.flag_init = 0 ∧
      s1.flag_end = 0 :=
  ⟨s, recMsg_stray N s chars hi hp hN (fun c hmem => (hc c hmem).1), rfl, hp, hi, he⟩

/-- Witness for C10: a fresh collector over one cell reading `AB`. -/
theorem recMsg_stray_idle_witness :
    (1 ≤ 1 ∧ (new [9] 36 42).pointer = 0 ∧ (new [9] 36 42).flag_init = 0 ∧
      (new [9] 36 42).flag_end = 0 ∧
      ∀ c ∈ [65, 66], c ≠ (new [9] 36 42).init_p ∧ c ≠ (new [9] 36 42).end_p) ∧
    ∃ s1, recMsg 1 (new [9] 36 42) [65, 66] = some s1 ∧ s1 = new [9] 36 42 ∧
      s1.pointer = 0 ∧ s1.flag_init = 0 ∧ s1.flag_end = 0 :=
  ⟨⟨by decide, rfl, rfl, rfl, by decide⟩,
   recMsg_stray_idle 1 (new [9] 36 42) [65, 66] (by decide) rfl rfl rfl (by decide)⟩

/-! ## Stores, pointer bound, flags -/

theorem recMsgChar_isSome_iff (N : Nat) (s : BufferRx) (c : Nat) :
    (recMsgChar N s c).isSome ↔ ∀ i ∈ storesOf N s c, i < N := by
  unfold recMsgChar storesOf ruleOf store
  split_ifs <;> simp_all

theorem recMsgChar_pointer_lt (N : Nat) (s s1 : BufferRx) (c : Nat) (h2 : 2 ≤ N)
    (hp : s.pointer < N) (h : recMsgChar N s c = some s1) : s1.pointer < N := by
  unfold recMsgChar store at h
  split_ifs at h <;> simp at h <;> (try subst h) <;> simp_all [BufferRx.reset] <;>
    (try omega)

theorem advances_pointer_lt (N : Nat) (s : BufferRx) (c : Nat) (h8 : N ≤ 256)
    (hs : Inv N s) (ha : advances N s c = true) : s.pointer < 255 := by
  obtain ⟨_, hidle | hcoll | hdone⟩ := hs
  · omega
  · omega
  · obtain ⟨hi, he, _, _⟩ := hdone
    have h4 : ¬ ((N : Int) - 1 < (s.pointer : Int)) := by omega
    simp [advances, ruleOf, hi, he, h4] at ha

theorem recMsg_pointer_lt (N : Nat) (s s1 : BufferRx) (chars : List Nat) (h2 : 2 ≤ N)
    (hp : s.pointer < N) (h : recMsg N s chars = some s1) : s1.pointer < N := by
  induction chars generalizing s with
  | nil => simp [recMsg] at h; subst h; exact hp
  | cons c rest ih =>
    simp only [recMsg] at h
    cases hc : recMsgChar N s c with
    | none => simp [hc] at h
    | some s2 =>
      rw [hc] at h
      exact ih s2 (recMsgChar_pointer_lt N s s2 c h2 hp hc) h

theorem Reachable.pointer_lt {N : Nat} {s : BufferRx} (h : Reachable N s) (h2 : 2 ≤ N) :
    s.pointer < N := by
  induction h with
  | ctor mem a b hmem => simp only [new]; omega
  | recv chars _ hcall ih => exact recMsg_pointer_lt N _ _ chars h2 ih hcall
  | reset _ _ => simp only [BufferRx.reset]; omega

/-- C11: on an array of `N` cells, `3 ≤ N ≤ 256`, take a reachable state, let `recMsg()`
read any chars `pre` and then one more char `c`. Every store made for `c` (the start char,
a body char, the end delimiter, the sentinel one past it) has an index below `N`, the
pointer is below 255 whenever it is incremented, and the step returns. -/
theorem recMsg_stores_in_bounds (N : Nat) (s : BufferRx) (h3 : 3 ≤ N) (h8 : N ≤ 256)
    (h : Reachable N s) (pre : List Nat) (c : Nat) :
    ∃ s2 s3, recMsg N s pre = some s2 ∧ recMsgChar N s2 c = some s3 ∧
      (∀ i ∈ storesOf N s2 c, i < N) ∧ (advances N s2 c = true → s2.pointer < 255) := by
  obtain ⟨s2, h2, hinv2, _, _⟩ := recMsg_inv N s pre h3 h8 (h.inv h3 h8)
  obtain ⟨s3, hstep, _, _, _⟩ := recMsgChar_inv N s2 c h3 h8 hinv2
  refine ⟨s2, s3, h2, hstep, ?_, advances_pointer_lt N s2 c h8 hinv2⟩
  exact (recMsgChar_isSome_iff N s2 c).1 (by simp [hstep])

/-- Witness for C11: the collecting state after `$A`, 8 cells, reading `B` and then `*`. -/
theorem recMsg_stores_in_bounds_witness :
    (3 ≤ 8 ∧ 8 ≤ 256 ∧ Reachable 8 stCollecting) ∧
    ∃ s2 s3, recMsg 8 stCollecting [66] = some s2 ∧ recMsgChar 8 s2 42 = some s3 ∧
      (∀ i ∈ storesOf 8 s2 42, i < 8) ∧ (advances 8 s2 42 = true → s2.pointer < 255) :=
  ⟨⟨by decide, by decide, stCollecting_reachable⟩,
   recMsg_stores_in_bounds 8 stCollecting (by decide) (by decide) stCollecting_reachable
     [66] 42⟩

/-- C12: on an array of `N ≥ 2` cells, in every reachable state `pointer` does not exceed
`N`; nor does the value that one more char, whatever its stores, would give the pointer. -/
theorem pointer_le_capacity (N : Nat) (s : BufferRx) (h2 : 2 ≤ N) (h : Reachable N s) :
    s.pointer ≤ N ∧ ∀ c, advances N s c = true → (s.pointer + 1) % 256 ≤ N := by
  have hlt := h.pointer_lt h2
  exact ⟨Nat.le_of_lt hlt, fun _ _ => le_trans (Nat.mod_le _ _) hlt⟩

/-- Witness for C12: the full 8-cell array holding `$ABCDE*`. -/
theorem pointer_le_capacity_witness :
    (2 ≤ 8 ∧ Reachable 8 stCompleteLong) ∧
    (stCompleteLong.pointer ≤ 8 ∧
      ∀ c, advances 8 stCompleteLong c = true → (stCompleteLong.pointer + 1) % 256 ≤ 8) :=
  ⟨⟨by decide, stCompleteLong_reachable⟩,
   pointer_le_capacity 8 stCompleteLong (by decide) stCompleteLong_reachable⟩

/-- C13: on an array of `N` cells, `3 ≤ N ≤ 256`, in every reachable state `flag_end` is set
only if `flag_init` is set. -/
theorem flag_end_implies_flag_init (N : Nat) (s : BufferRx) (h3 : 3 ≤ N) (h8 : N ≤ 256)
    (h : Reachable N s) (he : s.flag_end ≠ 0) : s.flag_init ≠ 0 := by
  obtain ⟨_, hidle | hcoll | hdone⟩ := h.inv h3 h8
  · exact absurd hidle.2.1 he
  · exact absurd hcoll.2.1 he
  · omega

/-- Witness for C13: the complete state after `$A*`, 8 cells. -/
theorem flag_end_implies_flag_init_witness :
    (3 ≤ 8 ∧ 8 ≤ 256 ∧ Reachable 8 stComplete ∧ stComplete.flag_end ≠ 0) ∧
    stComplete.flag_init ≠ 0 :=
  ⟨⟨by decide, by decide, stComplete_reachable, by decide⟩,
   flag_end_implies_flag_init 8 stComplete (by decide) (by decide) stComplete_reachable
     (by decide)⟩

/-! ## A message needs a frame -/

theorem recMsgChar_delims (N : Nat) (s s1 : BufferRx) (c : Nat)
    (h : recMsgChar N s c = some s1) : s1.init_p = s.init_p ∧ s1.end_p = s.end_p := by
  unfold recMsgChar store at h
  split_ifs at h <;> simp at h <;> subst h <;> simp [BufferRx.reset]

theorem recMsgChar_sets_flag_end (N : Nat) (s s1 : BufferRx) (c : Nat)
    (h : recMsgChar N s c = some s1) (he : s.flag_end = 0) (h1 : s1.flag_end ≠ 0) :
    c = s.end_p := by
  unfold recMsgChar store at h
  split_ifs at h <;> simp at h <;> (try subst h) <;> simp_all [BufferRx.reset]

theorem recMsg_sets_flag_end (N : Nat) (s s1 : BufferRx) (chars : List Nat)
    (h : recMsg N s chars = some s1) (he : s.flag_end = 0) (h1 : s1.flag_end ≠ 0) :
    ∃ j : Nat, chars[j]? = some s.end_p := by
  induction chars generalizing s with
  | nil => simp [recMsg] at h; subst h; exact absurd he h1
  | cons c rest ih =>
    simp only [recMsg] at h
    cases hc : recMsgChar N s c with
    | none => simp [hc] at h
    | some s2 =>
      rw [hc] at h
      by_cases h2 : s2.flag_end = 0
      · obtain ⟨j, hj⟩ := ih s2 h h2
        rw [(recMsgChar_delims N s s2 c hc).2] at hj
        exact ⟨j + 1, by simpa using hj⟩
      · exact ⟨0, by simp [recMsgChar_sets_flag_end N s s2 c hc he h2]⟩

theorem recMsg_idle_complete (N : Nat) (s s1 : BufferRx) (chars : List Nat) (hN : 1 ≤ N)
    (hi : s.flag_init = 0) (he : s.flag_end = 0) (hp : s.pointer = 0)
    (h : recMsg N s chars = some s1) (h1 : s1.flag_end ≠ 0) :
    ∃ i j : Nat, i < j ∧ chars[i]? = some s.init_p ∧ chars[j]? = some s.end_p := by
  induction chars with
  | nil => simp [recMsg] at h; subst h; exact absurd he h1
  | cons c rest ih =>
    simp only [recMsg] at h
    by_cases hc : c = s.init_p
    · cases hstep : recMsgChar N s c with
      | none => simp [hstep] at h
      | some s2 =>
        rw [hstep] at h
        have h2 : s2.flag_end = 0 := by
          rw [recMsgChar_start N s c hc hi hp (by omega)] at hstep
          cases hstep
          exact he
        obtain ⟨j, hj⟩ := recMsg_sets_flag_end N s2 s1 rest h h2 h1
        rw [(recMsgChar_delims N s s2 c hstep).2] at hj
        exact ⟨0, j + 1, by omega, by simp [hc], by simpa using hj⟩
    · rw [recMsgChar_stray N s c hc hi hp hN] at h
      obtain ⟨i, j, hij, hi1, hj1⟩ := ih h
      exact ⟨i + 1, j + 1, by omega, by simpa using hi1, by simpa using hj1⟩

/-- C14: on an array of `N` cells, `3 ≤ N ≤ 256`, start from a freshly constructed or
freshly reset collector and let it read chars in any number of `recMsg()` calls, without
`reset()`. If `hasMsg()` is non-zero afterwards, the chars read contain the start delimiter
at some index `i` and the end delimiter at some index `j > i`. -/
theorem hasMsg_needs_frame (N : Nat) (s0 s1 : BufferRx) (chunks : List (List Nat))
    (h3 : 3 ≤ N) (h8 : N ≤ 256)
    (hfresh : (∃ mem a b, mem.length = N ∧ s0 = new mem a b) ∨
      (∃ s, Reachable N s ∧ s0 = s.reset))
    (hrun : recMsgCalls N s0 chunks = some s1) (hmsg : (hasMsg s1).1 ≠ 0) :
    ∃ i j : Nat, i < j ∧ chunks.flatten[i]? = some s0.init_p ∧
      chunks.flatten[j]? = some s0.end_p := by
  have hidle : s0.flag_init = 0 ∧ s0.flag_end = 0 ∧ s0.pointer = 0 := by
    rcases hfresh with ⟨mem, a, b, _, rfl⟩ | ⟨s, _, rfl⟩ <;> exact ⟨rfl, rfl, rfl⟩
  have hend : s1.flag_end ≠ 0 := by
    intro h0
    simp [hasMsg, h0] at hmsg
  rw [recMsgCalls_flatten] at hrun
  exact recMsg_idle_complete N s0 s1 chunks.flatten (by omega) hidle.1 hidle.2.1 hidle.2.2
    hrun hend

/-- Witness for C14: a fresh collector over 8 cells reading `$A` and then `*`. -/
theorem hasMsg_needs_frame_witness :
    (3 ≤ 8 ∧ 8 ≤ 256 ∧
      ((∃ mem a b, mem.length = 8 ∧ new mem8 36 42 = new mem a b) ∨
        (∃ s, Reachable 8 s ∧ new mem8 36 42 = s.reset)) ∧
      recMsgCalls 8 (new mem8 36 42) [[36, 65], [42]] = some stComplete ∧
      (hasMsg stComplete).1 ≠ 0) ∧
    ∃ i j : Nat, i < j ∧ [[36, 65], [42]].flatten[i]? = some (new mem8 36 42).init_p ∧
      [[36, 65], [42]].flatten[j]? = some (new mem8 36 42).end_p :=
  ⟨⟨by decide, by decide, Or.inl ⟨mem8, 36, 42, rfl, rfl⟩, by decide, by decide⟩,
   hasMsg_needs_frame 8 (new mem8 36 42) stComplete [[36, 65], [42]] (by decide) (by decide)
     (Or.inl ⟨mem8, 36, 42, rfl, rfl⟩) (by decide) (by decide)⟩

/-! ## The drain of the transport -/

theorem recMsgLoop_eq (N : Nat) (k : Nat) (s : BufferRx) (ser : Serial)
    (hk : k ≤ ser.pending.length) :
    recMsgLoop N k s ser =
      (recMsg N s (ser.pending.take k)).map fun s1 =>
        (s1, ⟨ser.pending.drop k, ser.availableCalls, ser.readCalls + k⟩) := by
  induction k generalizing s ser with
  | zero => simp [recMsgLoop, recMsg]
  | succ k ih =>
    obtain ⟨pending, a, r⟩ := ser
    cases pending with
    | nil => simp at hk
    | cons c rest =>
      simp only [List.length_cons, Nat.add_le_add_iff_right] at hk
      simp only [recMsgLoop, Serial.read, List.take_succ_cons, recMsg, List.drop_succ_cons]
      cases hc : recMsgChar N s c with
      | none => simp
      | some s2 =>
        simp only [Option.some_bind]
        rw [ih s2 ⟨rest, a, r + 1⟩ hk]
        simp [Nat.add_assoc, Nat.add_comm 1 k]

/-- C15: `recMsg()` is a bounded drain. With `n` the count that `Serial.available()` reports
at entry, `n < 2^16`, the call is the classifier run on the first `n` pending chars in
order; the transport is left with those `n` chars removed, `n` more `read()` calls and one
more `available()` call logged. From a reachable state over `3 ≤ N ≤ 256` cells the call
returns. -/
theorem recMsgSerial_drain (N : Nat) (s : BufferRx) (ser : Serial)
    (hn : ser.available.1 < 65536) :
    recMsgSerial N s ser =
      ((recMsg N s (ser.pending.take ser.available.1)).map fun s1 =>
        (s1, ⟨ser.pending.drop ser.available.1, ser.availableCalls + 1,
              ser.readCalls + ser.available.1⟩)) ∧
    (3 ≤ N → N ≤ 256 → Reachable N s →
      ∃ s1, recMsgSerial N s ser =
        some (s1, ⟨ser.pending.drop ser.available.1, ser.availableCalls + 1,
                   ser.readCalls + ser.available.1⟩)) := by
  have hmod : ser.available.1 % 65536 = ser.available.1 := Nat.mod_eq_of_lt hn
  have hmain : recMsgSerial N s ser =
      ((recMsg N s (ser.pending.take ser.available.1)).map fun s1 =>
        (s1, ⟨ser.pending.drop ser.available.1, ser.availableCalls + 1,
              ser.readCalls + ser.available.1⟩)) := by
    unfold recMsgSerial
    rw [hmod, recMsgLoop_eq N _ s _ (by simp [Serial.available])]
    simp [Serial.available]
  refine ⟨hmain, fun h3 h8 hr => ?_⟩
  obtain ⟨s1, h1, _, _, _⟩ :=
    recMsg_inv N s (ser.pending.take ser.available.1) h3 h8 (hr.inv h3 h8)
  exact ⟨s1, by rw [hmain, h1]; rfl⟩

/-- Witness for C15: a fresh collector over 8 cells, three chars `$A*` waiting. -/
theorem recMsgSerial_drain_witness :
    (Serial.mk [36, 65, 42] 0 0).available.1 < 65536 ∧
    recMsgSerial 8 (new mem8 36 42) (Serial.mk [36, 65, 42] 0 0) =
      some (stComplete, Serial.mk [] 1 3) :=
  ⟨by decide,
   (recMsgSerial_drain 8 (new mem8 36 42) (Serial.mk [36, 65, 42] 0 0) (by decide)).1.trans
     (by decide)⟩

/-! ## Saturation -/

theorem recMsg_full (N : Nat) (s : BufferRx) (chars : List Nat)
    (hi : s.flag_init ≠ 0) (hlo : N ≤ s.pointer + 2) (hN : s.pointer + 1 ≤ N)
    (hc : ∀ c ∈ chars, c ≠ s.end_p) : recMsg N s chars = some s := by
  induction chars with
  | nil => rfl
  | cons c rest ih =>
    have h1 := recMsgChar_full N s c (hc c (by simp)) hi hlo hN
    simp [recMsg, h1, ih (fun d hd => hc d (by simp [hd]))]

theorem recMsg_body_sat (N : Nat) (s : BufferRx) (body : List Nat) (h8 : N ≤ 256)
    (hi : s.flag_init ≠ 0) (he : s.flag_end = 0) (hp : s.pointer + 2 ≤ N)
    (hlen : s.buffer_rx.length = N) (hb : ∀ b ∈ body, b ≠ s.end_p) :
    ∃ s1, recMsg N s body = some s1 ∧
      recMsg N s (body.take (N - 2 - s.pointer)) = some s1 ∧
      s1.flag_init = s.flag_init ∧ s1.flag_end = 0 ∧
      s1.pointer = s.pointer + min body.length (N - 2 - s.pointer) ∧
      s1.init_p = s.init_p ∧ s1.end_p = s.end_p ∧ s1.buffer_rx.length = N ∧
      s1.buffer_rx.take s1.pointer =
        s.buffer_rx.take s.pointer ++ body.take (N - 2 - s.pointer) := by
  have hlt : (body.take (N - 2 - s.pointer)).length = min body.length (N - 2 - s.pointer) := by
    simp [Nat.min_comm]
  obtain ⟨s1, h1, hf, hg, hptr, hip, hep, hl, hbuf⟩ :=
    recMsg_body N s (body.take (N - 2 - s.pointer)) h8 hi he (by rw [hlt]; omega) hlen
      (fun b hb1 => hb b (List.mem_of_mem_take hb1))
  rw [hlt] at hptr hbuf
  refine ⟨s1, ?_, h1, hf, hg, hptr, hip, hep, hl, by rw [hptr]; exact hbuf⟩
  have hsplit : body = body.take (N - 2 - s.pointer) ++ body.drop (N - 2 - s.pointer) :=
    (List.take_append_drop _ _).symm
  rw [hsplit, recMsg_append, h1]
  simp only [Option.some_bind]
  by_cases hshort : body.length ≤ N - 2 - s.pointer
  · simp [List.drop_eq_nil_of_le hshort, recMsg]
  · have hmin : min body.length (N - 2 - s.pointer) = N - 2 - s.pointer := by omega
    exact recMsg_full N s1 _ (by rw [hf]; exact hi) (by omega) (by omega)
      (fun c hc1 => by rw [hep]; exact hb c (List.mem_of_mem_drop hc1))

theorem recMsg_start_body (N : Nat) (s : BufferRx) (body : List Nat) (h3 : 3 ≤ N)
    (h8 : N ≤ 256) (hi : s.flag_init = 0) (hp : s.pointer = 0)
    (he : s.flag_end = 0) (hlen : s.buffer_rx.length = N) (hb : ∀ b ∈ body, b ≠ s.end_p) :
    ∃ s1, recMsg N s (s.init_p :: body) = some s1 ∧
      recMsg N s (s.init_p :: body.take (N - 3)) = some s1 ∧
      s1.flag_init = 1 ∧ s1.flag_end = 0 ∧ s1.pointer = min body.length (N - 3) + 1 ∧
      s1.init_p = s.init_p ∧ s1.end_p = s.end_p ∧ s1.buffer_rx.length = N ∧
      s1.buffer_rx.take s1.pointer = s.init_p :: body.take (N - 3) := by
  have hstart := recMsgChar_start N s s.init_p rfl hi hp (by omega)
  obtain ⟨s1, h1, h1t, hf, hg, hptr, hip, hep, hl, hbuf⟩ :=
    recMsg_body_sat N
      { s with buffer_rx := s.buffer_rx.set 0 s.init_p, flag_init := 1, pointer := 1 }
      body h8 (by simp) he (by simp; omega) (by simpa using hlen) hb
  simp only at h1t hf hptr hip hep hbuf
  have e : N - 2 - 1 = N - 3 := by omega
  rw [e] at h1t hptr hbuf
  have h0 : 0 < s.buffer_rx.length := by omega
  have ht := take_set_succ s.buffer_rx 0 s.init_p h0
  simp only [Nat.zero_add, List.take_zero, List.nil_append] at ht
  refine ⟨s1, by simp [recMsg, hstart, h1], by simp [recMsg, hstart, h1t], hf, hg,
    by omega, hip, hep, hl, ?_⟩
  rw [hbuf, ht]
  rfl

theorem recMsg_end_after_body (N : Nat) (s : BufferRx) (post : List Nat) (h8 : N ≤ 256)
    (hi : s.flag_init = 1) (he : s.flag_end = 0) (hp1 : 1 ≤ s.pointer)
    (hp2 : s.pointer + 2 ≤ N) (hlen : s.buffer_rx.length = N) :
    ∃ s2, recMsg N s (s.end_p :: post) = some s2 ∧ s2.flag_init = 1 ∧ s2.flag_end = 1 ∧
      s2.pointer = s.pointer + 1 ∧ s2.buffer_rx[s.pointer]? = some s.end_p ∧
      s2.buffer_rx[s.pointer + 1]? = some 0 ∧
      s2.buffer_rx.take s.pointer = s.buffer_rx.take s.pointer ∧
      s2.buffer_rx.take (s.pointer + 2) = s.buffer_rx.take s.pointer ++ [s.end_p, 0] := by
  have hend := recMsgChar_end N s s.end_p rfl (by omega) he (by omega) (by omega) h8
  have hq1 : s.pointer < s.buffer_rx.length := by omega
  have hq : s.pointer + 1 < (s.buffer_rx.set s.pointer s.end_p).length := by simp; omega
  refine ⟨{ s with buffer_rx := (s.buffer_rx.set s.pointer s.end_p).set (s.pointer + 1) 0,
                    flag_end := 1, pointer := s.pointer + 1 }, ?_, hi, rfl, rfl, ?_, ?_, ?_, ?_⟩
  · simp only [recMsg, hend, Option.some_bind]
    exact recMsg_completed N _ post (by simp [hi]) (by simp) (by simp; omega)
  · have e1 : s.pointer + 1 ≠ s.pointer := by omega
    simp only [List.getElem?_set_ne e1]
    exact List.getElem?_set_self hq1
  · exact List.getElem?_set_self hq
  · simp only
    rw [List.take_set_of_lt _ _ (Nat.lt_succ_self _), take_set_self]
  · simp only
    rw [take_set_succ _ _ _ hq, take_set_succ _ _ _ hq1]
    simp

/-- C17: saturation. On an array of `N` cells, `3 ≤ N ≤ 256`, a fresh collector that reads
the start delimiter and then `k ≥ N - 3` chars, none the end delimiter, is left started,
not completed, with `pointer = N - 2` and the start delimiter followed by the first `N - 3`
body chars in the buffer, exactly as if the excess chars had not been sent. An end
delimiter read next completes the message: `hasMsg() ≠ 0`, `pointer = N - 1`, the end
delimiter in cell `N - 2`, 0 in cell `N - 1`, the truncated body before them. -/
theorem recMsg_saturates (N : Nat) (mem : List Nat) (init_ end_ : Nat) (body : List Nat)
    (h3 : 3 ≤ N) (h8 : N ≤ 256) (hmem : mem.length = N) (hk : N - 3 ≤ body.length)
    (hb : ∀ c ∈ body, c ≠ end_) :
    ∃ s1 s2, recMsg N (new mem init_ end_) (init_ :: body) = some s1 ∧
      s1.flag_init = 1 ∧ s1.flag_end = 0 ∧ s1.pointer = N - 2 ∧
      s1.buffer_rx.take (N - 2) = init_ :: body.take (N - 3) ∧
      recMsg N (new mem init_ end_) (init_ :: body.take (N - 3)) = some s1 ∧
      recMsg N s1 [end_] = some s2 ∧ (hasMsg s2).1 ≠ 0 ∧ s2.pointer = N - 1 ∧
      s2.buffer_rx[N - 2]? = some end_ ∧ s2.buffer_rx[N - 1]? = some 0 ∧
      s2.buffer_rx.take (N - 2) = init_ :: body.take (N - 3) := by
  obtain ⟨s1, h1, h1t, hf, hg, hptr, _, hep, hl, hbuf⟩ :=
    recMsg_start_body N (new mem init_ end_) body h3 h8 rfl rfl rfl hmem hb
  have hptr2 : s1.pointer = N - 2 := by rw [hptr]; omega
  obtain ⟨s2, h2, hf2, hg2, hp2, hcell1, hcell2, hkeep, _⟩ :=
    recMsg_end_after_body N s1 [] h8 hf hg (by omega) (by omega) hl
  have hep1 : s1.end_p = end_ := hep
  rw [hep1] at h2 hcell1
  rw [hptr2] at hbuf hcell1 hcell2 hkeep hp2
  have e : N - 2 + 1 = N - 1 := by omega
  rw [e] at hcell2 hp2
  exact ⟨s1, s2, h1, hf, hg, hptr2, hbuf, h1t, h2, by simp [hasMsg, hf2, hg2], hp2, hcell1,
    hcell2, hkeep.trans hbuf⟩

/-- Witness for C17: 8 cells, `$` and then seven `A`. -/
theorem recMsg_saturates_witness :
    (3 ≤ 8 ∧ 8 ≤ 256 ∧ mem8.length = 8 ∧ 8 - 3 ≤ (List.replicate 7 65).length ∧
      ∀ c ∈ List.replicate 7 65, c ≠ 42) ∧
    ∃ s1 s2, recMsg 8 (new mem8 36 42) (36 :: List.replicate 7 65) = some s1 ∧
      s1.flag_init = 1 ∧ s1.flag_end = 0 ∧ s1.pointer = 8 - 2 ∧
      s1.buffer_rx.take (8 - 2) = 36 :: (List.replicate 7 65).take (8 - 3) ∧
      recMsg 8 (new mem8 36 42) (36 :: (List.replicate 7 65).take (8 - 3)) = some s1 ∧
      recMsg 8 s1 [42] = some s2 ∧ (hasMsg s2).1 ≠ 0 ∧ s2.pointer = 8 - 1 ∧
      s2.buffer_rx[8 - 2]? = some 42 ∧ s2.buffer_rx[8 - 1]? = some 0 ∧
      s2.buffer_rx.take (8 - 2) = 36 :: (List.replicate 7 65).take (8 - 3) :=
  ⟨⟨by decide, by decide, rfl, by decide, by decide⟩,
   recMsg_saturates 8 mem8 36 42 (List.replicate 7 65) (by decide) (by decide) rfl
     (by decide) (by decide)⟩

/-! ## The reference characterisation -/

theorem first_at_split (x : Nat) (l : List Nat) (m : Nat) (h : FirstAt x l m) :
    l = l.take m ++ x :: l.drop (m + 1) ∧ ∀ c ∈ l.take m, c ≠ x := by
  obtain ⟨hm, hfirst⟩ := h
  obtain ⟨hlt, hval⟩ := List.getElem?_eq_some_iff.1 hm
  constructor
  · have h1 : l.drop m = x :: l.drop (m + 1) := by
      rw [List.drop_eq_getElem_cons hlt, hval]
    rw [← h1, List.take_append_drop]
  · intro c hc hcx
    obtain ⟨k, hk⟩ := List.mem_iff_getElem?.1 hc
    have hklt : k < m := by
      by_contra hge
      rw [List.getElem?_take_eq_none (by omega)] at hk
      exact Option.noConfusion hk
    rw [List.getElem?_take_of_lt hklt] at hk
    exact hfirst k hklt (by rw [hk, hcx])

theorem first_after_drop (x : Nat) (l : List Nat) (i j : Nat) (h : FirstAfter x l i j) :
    FirstAt x (l.drop (i + 1)) (j - i - 1) := by
  obtain ⟨hij, hj, hfirst⟩ := h
  constructor
  · rw [List.getElem?_drop, show i + 1 + (j - i - 1) = j by omega]
    exact hj
  · intro k hk
    rw [List.getElem?_drop]
    exact hfirst (i + 1 + k) (by omega) (by omega)

theorem recMsg_first_frame (N : Nat) (s : BufferRx) (pre body post : List Nat) (h3 : 3 ≤ N)
    (h8 : N ≤ 256) (hi : s.flag_init = 0) (hp : s.pointer = 0) (he : s.flag_end = 0)
    (hlen : s.buffer_rx.length = N) (hpre : ∀ c ∈ pre, c ≠ s.init_p)
    (hb : ∀ c ∈ body, c ≠ s.end_p) :
    ∃ s1, recMsg N s (pre ++ s.init_p :: (body ++ s.end_p :: post)) = some s1 ∧
      s1.flag_init = 1 ∧ s1.flag_end = 1 ∧ s1.pointer = min body.length (N - 3) + 2 ∧
      s1.buffer_rx.take (min body.length (N - 3) + 3) =
        s.init_p :: body.take (N - 3) ++ [s.end_p, 0] := by
  obtain ⟨s1, h1, _, hf, hg, hptr, _, hep, hl, hbuf⟩ :=
    recMsg_start_body N s body h3 h8 hi hp he hlen hb
  obtain ⟨s2, h2, hf2, hg2, hp2, _, _, _, htake⟩ :=
    recMsg_end_after_body N s1 post h8 hf hg (by omega) (by omega) hl
  rw [hep] at h2 htake
  refine ⟨s2, ?_, hf2, hg2, by omega, ?_⟩
  · rw [recMsg_append, recMsg_stray N s pre hi hp (by omega) hpre]
    simp only [Option.some_bind]
    rw [← List.cons_append, recMsg_append, h1]
    exact h2
  · rw [show min body.length (N - 3) + 3 = s1.pointer + 2 by omega, htake, hbuf]

theorem recMsg_open_frame (N : Nat) (s : BufferRx) (pre rest : List Nat) (h3 : 3 ≤ N)
    (h8 : N ≤ 256) (hi : s.flag_init = 0) (hp : s.pointer = 0) (he : s.flag_end = 0)
    (hlen : s.buffer_rx.length = N) (hpre : ∀ c ∈ pre, c ≠ s.init_p)
    (hrest : ∀ c ∈ rest, c ≠ s.end_p) :
    ∃ s1, recMsg N s (pre ++ s.init_p :: rest) = some s1 ∧ s1.flag_end = 0 := by
  obtain ⟨s1, h1, _, _, hg, _⟩ := recMsg_start_body N s rest h3 h8 hi hp he hlen hrest
  refine ⟨s1, ?_, hg⟩
  rw [recMsg_append, recMsg_stray N s pre hi hp (by omega) hpre]
  exact h1

theorem firstAt_of_split (x : Nat) (pre rest : List Nat) (h : x ∉ pre) :
    FirstAt x (pre ++ x :: rest) pre.length := by
  constructor
  · rw [List.getElem?_append_right (Nat.le_refl _)]
    simp
  · intro k hk hx
    rw [List.getElem?_append_left hk] at hx
    exact h (List.mem_iff_getElem?.2 ⟨k, hx⟩)

theorem mem_drop_of_later (x : Nat) (l : List Nat) (i j : Nat) (hij : i < j)
    (hj : l[j]? = some x) : x ∈ l.drop (i + 1) := by
  refine List.mem_iff_getElem?.2 ⟨j - i - 1, ?_⟩
  rw [List.getElem?_drop, show i + 1 + (j - i - 1) = j by omega]
  exact hj

theorem hasMsg_of_flags (s : BufferRx) (hi : s.flag_init = 1) (he : s.flag_end = 1) :
    (hasMsg s).1 ≠ 0 := by
  simp [hasMsg, hi, he]

theorem hasMsg_of_flag_end_zero (s : BufferRx) (he : s.flag_end = 0) : (hasMsg s).1 = 0 := by
  simp [hasMsg, he]

/-- C16: the reference characterisation. On an array of `N` cells, `3 ≤ N ≤ 256`, a fresh
collector that reads `chars` returns, and `hasMsg()` is non-zero afterwards exactly when
`chars` has a first occurrence `i` of the start delimiter and an occurrence of the end
delimiter after `i`. In that case, with `j` the first index after `i` that holds the end
delimiter and `body = chars[i+1 .. j-1]`, the buffer holds the start delimiter, the first
`min |body| (N - 3)` chars of `body`, the end delimiter and 0, and
`pointer = min |body| (N - 3) + 2`. -/
theorem recMsg_reference (N : Nat) (mem : List Nat) (init_ end_ : Nat) (chars : List Nat)
    (h3 : 3 ≤ N) (h8 : N ≤ 256) (hmem : mem.length = N) :
    ∃ s1, recMsg N (new mem init_ end_) chars = some s1 ∧
      ((hasMsg s1).1 ≠ 0 ↔
        ∃ i j : Nat, FirstAt init_ chars i ∧ i < j ∧ chars[j]? = some end_) ∧
      ∀ i j : Nat, FirstAt init_ chars i → FirstAfter end_ chars i j →
        s1.pointer = min (between chars i j).length (N - 3) + 2 ∧
        s1.buffer_rx.take (min (between chars i j).length (N - 3) + 3) =
          init_ :: (between chars i j).take (min (between chars i j).length (N - 3)) ++
            [end_, 0] := by
  have hinv0 : Inv N (new mem init_ end_) := ⟨hmem, Or.inl ⟨rfl, rfl, rfl⟩⟩
  obtain ⟨s1, h1, _, _, _⟩ := recMsg_inv N (new mem init_ end_) chars h3 h8 hinv0
  have hframe : ∀ pre body post : List Nat, chars = pre ++ init_ :: (body ++ end_ :: post) →
      (∀ c ∈ pre, c ≠ init_) → (∀ c ∈ body, c ≠ end_) →
      s1.flag_init = 1 ∧ s1.flag_end = 1 ∧ s1.pointer = min body.length (N - 3) + 2 ∧
      s1.buffer_rx.take (min body.length (N - 3) + 3) =
        init_ :: body.take (N - 3) ++ [end_, 0] := by
    intro pre body post hchars hpre hb
    obtain ⟨s2, h2, hf, hg, hptr, hbuf⟩ :=
      recMsg_first_frame N (new mem init_ end_) pre body post h3 h8 rfl rfl rfl hmem hpre hb
    have heq : s1 = s2 := by
      have h2c : recMsg N (new mem init_ end_) chars = some s2 := by rw [hchars]; exact h2
      rw [h1] at h2c
      exact Option.some.inj h2c
    subst heq
    exact ⟨hf, hg, hptr, hbuf⟩
  refine ⟨s1, h1, ⟨fun hmsg => ?_, fun hex => ?_⟩, fun i j hi hj => ?_⟩
  · by_cases hin : init_ ∈ chars
    · obtain ⟨pre, rest, hchars, hpre⟩ := List.eq_append_cons_of_mem hin
      by_cases hend : end_ ∈ rest
      · obtain ⟨m, hm⟩ := List.mem_iff_getElem?.1 hend
        refine ⟨pre.length, pre.length + 1 + m, ?_, by omega, ?_⟩
        · rw [hchars]
          exact firstAt_of_split init_ pre rest hpre
        · rw [hchars, List.getElem?_append_right (by omega),
            show pre.length + 1 + m - pre.length = m + 1 by omega]
          simpa using hm
      · exfalso
        obtain ⟨s2, h2, hg⟩ :=
          recMsg_open_frame N (new mem init_ end_) pre rest h3 h8 rfl rfl rfl hmem
            (fun c hc (hcx : c = init_) => hpre (hcx ▸ hc))
            (fun c hc (hcx : c = end_) => hend (hcx ▸ hc))
        have h2c : recMsg N (new mem init_ end_) chars = some s2 := by rw [hchars]; exact h2
        rw [h1] at h2c
        cases h2c
        exact hmsg (hasMsg_of_flag_end_zero s1 hg)
    · exfalso
      have h2 := recMsg_stray N (new mem init_ end_) chars rfl rfl (by omega)
        (fun c hc (hcx : c = init_) => hin (hcx ▸ hc))
      rw [h1] at h2
      cases h2
      exact hmsg rfl
  · obtain ⟨i, j, hi, hij, hj⟩ := hex
    obtain ⟨hsplit, hpre⟩ := first_at_split init_ chars i hi
    obtain ⟨body, post, hrest, hb⟩ :=
      List.eq_append_cons_of_mem (mem_drop_of_later end_ chars i j hij hj)
    rw [hrest] at hsplit
    obtain ⟨hf, hg, _, _⟩ := hframe _ body post hsplit hpre
      (fun c hc hcx => hb (hcx ▸ hc))
    exact hasMsg_of_flags s1 hf hg
  · obtain ⟨hsplit, hpre⟩ := first_at_split init_ chars i hi
    obtain ⟨hsplit2, hb⟩ :=
      first_at_split end_ (chars.drop (i + 1)) (j - i - 1) (first_after_drop end_ chars i j hj)
    rw [hsplit2] at hsplit
    obtain ⟨_, _, hptr, hbuf⟩ := hframe _ _ _ hsplit hpre hb
    have htk : (between chars i j).take (min (between chars i j).length (N - 3)) =
        (between chars i j).take (N - 3) :=
      List.take_eq_take.2 (by omega)
    rw [htk]
    exact ⟨hptr, hbuf⟩

/-- Witness for C16: 8 cells, the chars `A$BC*D`. -/
theorem recMsg_reference_witness :
    (3 ≤ 8 ∧ 8 ≤ 256 ∧ mem8.length = 8) ∧
    ∃ s1, recMsg 8 (new mem8 36 42) [65, 36, 66, 67, 42, 68] = some s1 ∧
      ((hasMsg s1).1 ≠ 0 ↔
        ∃ i j : Nat, FirstAt 36 [65, 36, 66, 67, 42, 68] i ∧ i < j ∧
          [65, 36, 66, 67, 42, 68][j]? = some 42) ∧
      ∀ i j : Nat, FirstAt 36 [65, 36, 66, 67, 42, 68] i →
        FirstAfter 42 [65, 36, 66, 67, 42, 68] i j →
        s1.pointer = min (between [65, 36, 66, 67, 42, 68] i j).length (8 - 3) + 2 ∧
        s1.buffer_rx.take (min (between [65, 36, 66, 67, 42, 68] i j).length (8 - 3) + 3) =
          36 :: (between [65, 36, 66, 67, 42, 68] i j).take
            (min (between [65, 36, 66, 67, 42, 68] i j).length (8 - 3)) ++ [42, 0] :=
  ⟨⟨by decide, by decide, rfl⟩,
   recMsg_reference 8 mem8 36 42 [65, 36, 66, 67, 42, 68] (by decide) (by decide) rfl⟩

/-! ## Monotonicity -/

theorem ruleOf_ne_overflow (N : Nat) (s : BufferRx) (c : Nat) (h : s.pointer + 1 ≤ N) :
    ruleOf N s c ≠ Rule.overflow := by
  have h4 : ¬ ((s.pointer : Int) > (N : Int) - 1) := by omega
  unfold ruleOf
  split_ifs <;> simp

theorem Inv.pointer_le {N : Nat} {s : BufferRx} (hs : Inv N s) (h3 : 3 ≤ N) :
    s.pointer + 1 ≤ N := by
  obtain ⟨_, hidle | hcoll | hdone⟩ := hs <;> omega

theorem recMsgChar_mono (N : Nat) (s : BufferRx) (c : Nat) (h3 : 3 ≤ N) (h8 : N ≤ 256)
    (hs : Inv N s) :
    ∃ s1, recMsgChar N s c = some s1 ∧ Inv N s1 ∧ s.pointer ≤ s1.pointer ∧
      (s.flag_init ≠ 0 → s1.flag_init ≠ 0) ∧ (s.flag_end ≠ 0 → s1.flag_end ≠ 0) := by
  obtain ⟨s1, h1, hinv1, _, _⟩ := recMsgChar_inv N s c h3 h8 hs
  refine ⟨s1, h1, hinv1, ?_⟩
  obtain ⟨_, hidle | hcoll | hdone⟩ := hs
  · obtain ⟨hi, he, hp⟩ := hidle
    exact ⟨by omega, fun h => absurd hi h, fun h => absurd he h⟩
  · obtain ⟨hi, he, hp1, hp2⟩ := hcoll
    by_cases hc : c = s.end_p
    · rw [recMsgChar_end N s c hc (by omega) he (by omega) (by omega) h8] at h1
      cases h1
      exact ⟨by simp, fun _ => by simp [hi], fun h => absurd he h⟩
    · by_cases hroom : s.pointer + 2 < N
      · rw [recMsgChar_body N s c hc (by omega) he hroom h8] at h1
        cases h1
        exact ⟨by simp, fun _ => by simp [hi], fun h => absurd he h⟩
      · rw [recMsgChar_full N s c hc (by omega) (by omega) (by omega)] at h1
        cases h1
        exact ⟨le_refl _, id, id⟩
  · obtain ⟨hi, he, hp1, hp2⟩ := hdone
    rw [recMsgChar_completed N s c (by omega) (by omega) hp2] at h1
    cases h1
    exact ⟨le_refl _, id, id⟩

theorem recMsg_mono (N : Nat) (s : BufferRx) (chars : List Nat) (h3 : 3 ≤ N) (h8 : N ≤ 256)
    (hs : Inv N s) :
    ∃ s1, recMsg N s chars = some s1 ∧ Inv N s1 ∧ s.pointer ≤ s1.pointer ∧
      (s.flag_init ≠ 0 → s1.flag_init ≠ 0) ∧ (s.flag_end ≠ 0 → s1.flag_end ≠ 0) := by
  induction chars generalizing s with
  | nil => exact ⟨s, rfl, hs, le_refl _, id, id⟩
  | cons c rest ih =>
    obtain ⟨s2, h2, hinv2, hp2, hi2, he2⟩ := recMsgChar_mono N s c h3 h8 hs
    obtain ⟨s1, h1, hinv1, hp1, hi1, he1⟩ := ih s2 hinv2
    exact ⟨s1, by simp [recMsg, h2, h1], hinv1, le_trans hp2 hp1, fun h => hi1 (hi2 h),
      fun h => he1 (he2 h)⟩

/-- C18: on an array of `N` cells, `3 ≤ N ≤ 256`, let `recMsg()` read `pre` and then `post`
from a reachable state. At the intermediate state and at the final state `pointer ≤ N - 1`,
so that no char can take the overflow branch; between the two the pointer does not
decrease and a set `flag_init` or `flag_end` stays set. Only `reset()` gives back the idle
state. -/
theorem recMsg_monotone (N : Nat) (s : BufferRx) (h3 : 3 ≤ N) (h8 : N ≤ 256)
    (h : Reachable N s) (pre post : List Nat) :
    ∃ s2 s1, recMsg N s pre = some s2 ∧ recMsg N s2 post = some s1 ∧
      recMsg N s (pre ++ post) = some s1 ∧
      s2.pointer ≤ N - 1 ∧ s1.pointer ≤ N - 1 ∧
      (∀ c, ruleOf N s2 c ≠ Rule.overflow) ∧ (∀ c, ruleOf N s1 c ≠ Rule.overflow) ∧
      s2.pointer ≤ s1.pointer ∧ (s2.flag_init ≠ 0 → s1.flag_init ≠ 0) ∧
      (s2.flag_end ≠ 0 → s1.flag_end ≠ 0) ∧
      s1.reset.pointer = 0 ∧ s1.reset.flag_init = 0 ∧ s1.reset.flag_end = 0 := by
  obtain ⟨s2, h2, hinv2, _, _, _⟩ := recMsg_mono N s pre h3 h8 (h.inv h3 h8)
  obtain ⟨s1, h1, hinv1, hp, hi, he⟩ := recMsg_mono N s2 post h3 h8 hinv2
  have hb2 := hinv2.pointer_le h3
  have hb1 := hinv1.pointer_le h3
  exact ⟨s2, s1, h2, h1, by simp [recMsg_append, h2, h1], by omega, by omega,
    fun c => ruleOf_ne_overflow N s2 c hb2, fun c => ruleOf_ne_overflow N s1 c hb1,
    hp, hi, he, rfl, rfl, rfl⟩

/-- Witness for C18: the collecting state after `$A`, 8 cells, reading `BCDEFG` then `*H`. -/
theorem recMsg_monotone_witness :
    (3 ≤ 8 ∧ 8 ≤ 256 ∧ Reachable 8 stCollecting) ∧
    ∃ s2 s1, recMsg 8 stCollecting [66, 67, 68, 69, 70, 71] = some s2 ∧
      recMsg 8 s2 [42, 72] = some s1 ∧
      recMsg 8 stCollecting ([66, 67, 68, 69, 70, 71] ++ [42, 72]) = some s1 ∧
      s2.pointer ≤ 8 - 1 ∧ s1.pointer ≤ 8 - 1 ∧
      (∀ c, ruleOf 8 s2 c ≠ Rule.overflow) ∧ (∀ c, ruleOf 8 s1 c ≠ Rule.overflow) ∧
      s2.pointer ≤ s1.pointer ∧ (s2.flag_init ≠ 0 → s1.flag_init ≠ 0) ∧
      (s2.flag_end ≠ 0 → s1.flag_end ≠ 0) ∧
      s1.reset.pointer = 0 ∧ s1.reset.flag_init = 0 ∧ s1.reset.flag_end = 0 :=
  ⟨⟨by decide, by decide, stCollecting_reachable⟩,
   recMsg_monotone 8 stCollecting (by decide) (by decide) stCollecting_reachable
     [66, 67, 68, 69, 70, 71] [42, 72]⟩

/-! ## The layout of the buffered frame -/

theorem recMsgChar_shape (N : Nat) (s s1 : BufferRx) (c : Nat) (h3 : 3 ≤ N) (h8 : N ≤ 256)
    (hs : Inv N s) (hsh : Shape s) (h : recMsgChar N s c = some s1) : Shape s1 := by
  obtain ⟨hA, hB, hC⟩ := hsh
  obtain ⟨hlen, hidle | hcoll | hdone⟩ := hs
  · obtain ⟨hi, he, hp⟩ := hidle
    by_cases hc : c = s.init_p
    · rw [recMsgChar_start N s c hc hi hp (by omega)] at h
      cases h
      refine ⟨fun _ => ?_, fun _ _ i h1 h2 => ?_, fun h0 => absurd he h0⟩
      · simp only [hc]
        exact List.getElem?_set_self (by omega)
      · simp only at h2
        omega
    · rw [recMsgChar_stray N s c hc hi hp (by omega)] at h
      cases h
      exact ⟨hA, hB, hC⟩
  · obtain ⟨hi, he, hp1, hp2⟩ := hcoll
    have hi0 : s.flag_init ≠ 0 := by omega
    by_cases hc : c = s.end_p
    · rw [recMsgChar_end N s c hc hi0 he (by omega) (by omega) h8] at h
      cases h
      refine ⟨fun _ => ?_, fun _ h0 => ?_, fun _ => ⟨fun i h1 h2 => ?_, ?_, ?_⟩⟩
      · have e1 : s.pointer + 1 ≠ 0 := by omega
        have e2 : s.pointer ≠ 0 := by omega
        simp only [List.getElem?_set_ne e1, List.getElem?_set_ne e2]
        exact hA hi0
      · simp at h0
      · simp only at h2
        have e1 : s.pointer + 1 ≠ i := by omega
        have e2 : s.pointer ≠ i := by omega
        simp only [List.getElem?_set_ne e1, List.getElem?_set_ne e2]
        exact hB hi0 he i h1 (by omega)
      · have e1 : s.pointer + 1 ≠ s.pointer := by omega
        simp only [Nat.add_sub_cancel, List.getElem?_set_ne e1, hc]
        exact List.getElem?_set_self (by omega)
      · exact List.getElem?_set_self (by simp; omega)
    · by_cases hroom : s.pointer + 2 < N
      · rw [recMsgChar_body N s c hc hi0 he hroom h8] at h
        cases h
        refine ⟨fun _ => ?_, fun _ _ i h1 h2 => ?_, fun h0 => absurd he h0⟩
        · have e2 : s.pointer ≠ 0 := by omega
          simp only [List.getElem?_set_ne e2]
          exact hA hi0
        · simp only at h2
          by_cases hip : i = s.pointer
          · subst hip
            rw [List.getElem?_set_self (by omega)]
            intro hx
            exact hc (Option.some.inj hx)
          · have e2 : s.pointer ≠ i := fun e => hip e.symm
            simp only [List.getElem?_set_ne e2]
            exact hB hi0 he i h1 (by omega)
      · rw [recMsgChar_full N s c hc hi0 (by omega) (by omega)] at h
        cases h
        exact ⟨hA, hB, hC⟩
  · obtain ⟨hi, he, hp1, hp2⟩ := hdone
    rw [recMsgChar_completed N s c (by omega) (by omega) hp2] at h
    cases h
    exact ⟨hA, hB, hC⟩

theorem recMsg_shape (N : Nat) (s s1 : BufferRx) (chars : List Nat) (h3 : 3 ≤ N)
    (h8 : N ≤ 256) (hs : Inv N s) (hsh : Shape s) (h : recMsg N s chars = some s1) :
    Shape s1 := by
  induction chars generalizing s with
  | nil => simp [recMsg] at h; subst h; exact hsh
  | cons c rest ih =>
    obtain ⟨s2, h2, hinv2, _, _⟩ := recMsgChar_inv N s c h3 h8 hs
    simp only [recMsg, h2, Option.some_bind] at h
    exact ih s2 hinv2 (recMsgChar_shape N s s2 c h3 h8 hs hsh h2) h

theorem Reachable.shape {N : Nat} {s : BufferRx} (h : Reachable N s) (h3 : 3 ≤ N)
    (h8 : N ≤ 256) : Shape s := by
  induction h with
  | ctor mem a b hmem =>
    exact ⟨fun h0 => absurd rfl h0, fun h0 => absurd rfl h0, fun h0 => absurd rfl h0⟩
  | recv chars hs hcall ih => exact recMsg_shape N _ _ chars h3 h8 (hs.inv h3 h8) ih hcall
  | reset _ _ =>
    exact ⟨fun h0 => absurd rfl h0, fun h0 => absurd rfl h0, fun h0 => absurd rfl h0⟩

/-- C19: on an array of `N` cells, `3 ≤ N ≤ 256`, in a reachable state with `flag_init`
set: `pointer ≥ 1`, cell 0 holds the start delimiter, and no cell `i` with
`1 ≤ i < pointer - 1` holds the end delimiter. If `flag_end` is set as well, `pointer ≥ 2`,
cell `pointer - 1` holds the end delimiter and cell `pointer` holds 0. -/
theorem frame_shape (N : Nat) (s : BufferRx) (h3 : 3 ≤ N) (h8 : N ≤ 256)
    (h : Reachable N s) (hi : s.flag_init ≠ 0) :
    1 ≤ s.pointer ∧ s.buffer_rx[0]? = some s.init_p ∧
    (∀ i : Nat, 1 ≤ i → i < s.pointer - 1 → s.buffer_rx[i]? ≠ some s.end_p) ∧
    (s.flag_end ≠ 0 → 2 ≤ s.pointer ∧ s.buffer_rx[s.pointer - 1]? = some s.end_p ∧
      s.buffer_rx[s.pointer]? = some 0) := by
  obtain ⟨hA, hB, hC⟩ := h.shape h3 h8
  obtain ⟨_, hidle | hcoll | hdone⟩ := h.inv h3 h8
  · exact absurd hidle.1 hi
  · obtain ⟨_, he, hp1, _⟩ := hcoll
    exact ⟨hp1, hA hi, fun i h1 h2 => hB hi he i h1 (by omega), fun h0 => absurd he h0⟩
  · obtain ⟨_, he, hp1, _⟩ := hdone
    have he0 : s.flag_end ≠ 0 := by omega
    obtain ⟨hC1, hC2, hC3⟩ := hC he0
    exact ⟨by omega, hA hi, fun i h1 h2 => hC1 i h1 (by omega), fun _ => ⟨hp1, hC2, hC3⟩⟩

/-- Witness for C19: the full 8-cell array holding `$ABCDE*`. -/
theorem frame_shape_witness :
    (3 ≤ 8 ∧ 8 ≤ 256 ∧ Reachable 8 stCompleteLong ∧ stCompleteLong.flag_init ≠ 0) ∧
    (1 ≤ stCompleteLong.pointer ∧
     stCompleteLong.buffer_rx[0]? = some stCompleteLong.init_p ∧
     (∀ i : Nat, 1 ≤ i → i < stCompleteLong.pointer - 1 →
        stCompleteLong.buffer_rx[i]? ≠ some stCompleteLong.end_p) ∧
     (stCompleteLong.flag_end ≠ 0 → 2 ≤ stCompleteLong.pointer ∧
        stCompleteLong.buffer_rx[stCompleteLong.pointer - 1]? = some stCompleteLong.end_p ∧
        stCompleteLong.buffer_rx[stCompleteLong.pointer]? = some 0)) :=
  ⟨⟨by decide, by decide, stCompleteLong_reachable, by decide⟩,
   frame_shape 8 stCompleteLong (by decide) (by decide) stCompleteLong_reachable
     (by decide)⟩

/-! ## Chunking -/

theorem recMsgSerial_eq (N : Nat) (s : BufferRx) (ser : Serial)
    (hn : ser.pending.length < 65536) :
    recMsgSerial N s ser =
      (recMsg N s ser.pending).map fun s1 =>
        (s1, ⟨[], ser.availableCalls + 1, ser.readCalls + ser.pending.length⟩) := by
  unfold recMsgSerial
  have hmod : ser.available.1 % 65536 = ser.pending.length := Nat.mod_eq_of_lt hn
  rw [hmod, recMsgLoop_eq N _ s _ (by simp [Serial.available])]
  simp [Serial.available]

theorem recMsgSerialCalls_eq (N : Nat) (s : BufferRx) (ser : Serial)
    (chunks : List (List Nat)) (hempty : ser.pending = [])
    (hlen : chunks.flatten.length < 65536) :
    recMsgSerialCalls N s ser chunks =
      (recMsg N s chunks.flatten).map fun s1 =>
        (s1, ⟨[], ser.availableCalls + chunks.length,
              ser.readCalls + chunks.flatten.length⟩) := by
  induction chunks generalizing s ser with
  | nil =>
    obtain ⟨pending, a, r⟩ := ser
    simp only at hempty
    subst hempty
    simp [recMsgSerialCalls, recMsg]
  | cons chunk rest ih =>
    simp only [List.flatten_cons, List.length_append] at hlen
    have hcall := recMsgSerial_eq N s (ser.arrive chunk)
      (by simp [Serial.arrive, hempty]; omega)
    simp only [Serial.arrive, hempty, List.nil_append] at hcall
    simp only [recMsgSerialCalls, Serial.arrive, hempty, List.nil_append, hcall,
      List.flatten_cons, recMsg_append, List.length_cons, List.length_append]
    cases hc : recMsg N s chunk with
    | none => simp
    | some s2 =>
      simp only [Option.map_some', Option.some_bind]
      rw [ih s2 ⟨[], ser.availableCalls + 1, ser.readCalls + chunk.length⟩ rfl (by omega)]
      simp [Nat.add_assoc, Nat.add_comm 1 rest.length]

theorem flatten_singletons (chars : List Nat) :
    (chars.map fun c => [c]).flatten = chars := by
  induction chars with
  | nil => rfl
  | cons c rest ih => simpa using ih

theorem recMsgSerial_fst (N : Nat) (s : BufferRx) (ser : Serial) (chars : List Nat)
    (hempty : ser.pending = []) (hlen : chars.length < 65536) :
    (recMsgSerial N s (ser.arrive chars)).map Prod.fst = recMsg N s chars := by
  rw [recMsgSerial_eq N s (ser.arrive chars) (by simpa [Serial.arrive, hempty] using hlen)]
  simp only [Serial.arrive, hempty, List.nil_append]
  cases recMsg N s chars <;> rfl

theorem recMsgSerialCalls_fst (N : Nat) (s : BufferRx) (ser : Serial)
    (chunks : List (List Nat)) (hempty : ser.pending = [])
    (hlen : chunks.flatten.length < 65536) :
    (recMsgSerialCalls N s ser chunks).map Prod.fst = recMsg N s chunks.flatten := by
  rw [recMsgSerialCalls_eq N s ser chunks hempty hlen]
  cases recMsg N s chunks.flatten <;> rfl

theorem recMsgSerial_wraps (tail : List Nat) (ht : tail.length = 65534) :
    [[36, 42], tail].flatten = 36 :: 42 :: tail ∧
    (recMsgSerial 8 (new mem8 36 42)
        ((Serial.mk [] 0 0).arrive (36 :: 42 :: tail))).map Prod.fst =
      some (new mem8 36 42) ∧
    (recMsgSerialCalls 8 (new mem8 36 42) (Serial.mk [] 0 0) [[36, 42], tail]).map Prod.fst =
      some ⟨[36, 42, 0, 9, 9, 9, 9, 9], 1, 1, 2, 36, 42⟩ := by
  refine ⟨by simp, ?_, ?_⟩
  · simp [recMsgSerial, Serial.available, Serial.arrive, recMsgLoop, ht]
  · have h1 : recMsgSerial 8 (new mem8 36 42) ((Serial.mk [] 0 0).arrive [36, 42]) =
        some (⟨[36, 42, 0, 9, 9, 9, 9, 9], 1, 1, 2, 36, 42⟩, Serial.mk [] 1 2) := by
      decide
    have h2 : recMsgSerial 8 ⟨[36, 42, 0, 9, 9, 9, 9, 9], 1, 1, 2, 36, 42⟩
        ((Serial.mk [] 1 2).arrive tail) =
        some (⟨[36, 42, 0, 9, 9, 9, 9, 9], 1, 1, 2, 36, 42⟩, Serial.mk [] 2 65536) := by
      rw [recMsgSerial_eq _ _ _ (by simp [Serial.arrive, ht])]
      simp only [Serial.arrive, List.nil_append]
      rw [recMsg_completed 8 _ _ (by decide) (by decide) (by decide)]
      simp [ht]
    simp [recMsgSerialCalls, h1, h2]

/-- C2, as stated, fails on the method. Eight cells, a fresh collector, and the 65536 chars
`$*` followed by 65534 `B`. Queued whole, one `recMsg()` call finds `charAvail = 0` in its
`uint16_t` counter, reads nothing and leaves the collector idle. Queued as the two chunks
`$*` and the 65534 `B`, one call per chunk, the frame `$*` is completed. -/
theorem recMsgSerial_chunking_fails :
    ([[36, 42], List.replicate 65534 66].flatten = 36 :: 42 :: List.replicate 65534 66 ∧
     (recMsgSerial 8 (new mem8 36 42)
         ((Serial.mk [] 0 0).arrive (36 :: 42 :: List.replicate 65534 66))).map Prod.fst =
       some (new mem8 36 42) ∧
     (recMsgSerialCalls 8 (new mem8 36 42) (Serial.mk [] 0 0)
         [[36, 42], List.replicate 65534 66]).map Prod.fst =
       some ⟨[36, 42, 0, 9, 9, 9, 9, 9], 1, 1, 2, 36, 42⟩) ∧
    (hasMsg (new mem8 36 42)).1 = 0 ∧
    (hasMsg ⟨[36, 42, 0, 9, 9, 9, 9, 9], 1, 1, 2, 36, 42⟩).1 ≠ 0 :=
  ⟨recMsgSerial_wraps (List.replicate 65534 66) (List.length_replicate 65534 66),
   by decide, by decide⟩

/-- C2, amended: chunking invariance for fewer than 2^16 chars. From any collector state
and an empty transport queue, a char sequence of fewer than 2^16 chars that arrives
through any partition into consecutive chunks, one `recMsg()` call per chunk, and in
particular one char per call, leaves the collector with the same outcome as the whole
sequence arriving before a single call. On the chars a call reads, reading `xs ++ ys` is
reading `xs` and then `ys`. -/
theorem recMsgSerial_chunking (N : Nat) (s : BufferRx) (ser : Serial)
    (chunks : List (List Nat)) (hempty : ser.pending = [])
    (hlen : chunks.flatten.length < 65536) :
    (recMsgSerialCalls N s ser chunks).map Prod.fst =
      (recMsgSerial N s (ser.arrive chunks.flatten)).map Prod.fst ∧
    (recMsgSerialCalls N s ser (chunks.flatten.map fun c => [c])).map Prod.fst =
      (recMsgSerial N s (ser.arrive chunks.flatten)).map Prod.fst ∧
    (recMsgSerial N s (ser.arrive chunks.flatten)).map Prod.fst = recMsg N s chunks.flatten ∧
    (∀ xs ys : List Nat,
      recMsg N s (xs ++ ys) = (recMsg N s xs).bind fun s1 => recMsg N s1 ys) := by
  have hone := recMsgSerial_fst N s ser chunks.flatten hempty hlen
  refine ⟨?_, ?_, hone, recMsg_append N s⟩
  · rw [hone]
    exact recMsgSerialCalls_fst N s ser chunks hempty hlen
  · rw [hone, recMsgSerialCalls_fst N s ser _ hempty
      (by rw [flatten_singletons]; exact hlen), flatten_singletons]

/-- Witness for amended C2: 8 cells, a fresh collector, `$A` and then `*`. -/
theorem recMsgSerial_chunking_witness :
    ((Serial.mk [] 0 0).pending = [] ∧ [[36, 65], [42]].flatten.length < 65536) ∧
    ((recMsgSerialCalls 8 (new mem8 36 42) (Serial.mk [] 0 0) [[36, 65], [42]]).map Prod.fst =
       (recMsgSerial 8 (new mem8 36 42)
         ((Serial.mk [] 0 0).arrive [[36, 65], [42]].flatten)).map Prod.fst ∧
     (recMsgSerialCalls 8 (new mem8 36 42) (Serial.mk [] 0 0)
         ([[36, 65], [42]].flatten.map fun c => [c])).map Prod.fst =
       (recMsgSerial 8 (new mem8 36 42)
         ((Serial.mk [] 0 0).arrive [[36, 65], [42]].flatten)).map Prod.fst ∧
     (recMsgSerial 8 (new mem8 36 42)
         ((Serial.mk [] 0 0).arrive [[36, 65], [42]].flatten)).map Prod.fst =
       recMsg 8 (new mem8 36 42) [[36, 65], [42]].flatten ∧
     (∀ xs ys : List Nat,
       recMsg 8 (new mem8 36 42) (xs ++ ys) =
         (recMsg 8 (new mem8 36 42) xs).bind fun s1 => recMsg 8 s1 ys)) :=
  ⟨⟨rfl, by decide⟩,
   recMsgSerial_chunking 8 (new mem8 36 42) (Serial.mk [] 0 0) [[36, 65], [42]] rfl
     (by decide)⟩

end BufferRx
